import Mathlib

set_option maxHeartbeats 1000000
set_option maxRecDepth 8000

/-
  Verification development for the celtic_knots knot-decomposition core
  (cknot.hpp / cknot.cpp / spline.hpp).

  The embedding follows the source: coordinates are exact rationals
  (the structural claims checked here are independent of floating-point
  rounding: all coordinate comparisons in the source are exact), the
  transcendental pieces (the atan2-based angle comparator used to sort a
  junction incident list, and the rotated normal computed for Cross
  samples) are abstract parameters, every theorem below is quantified
  over them.  C++ assert is modelled as an error value of an Except
  computation; std::set of Node is modelled as a list strictly sorted by
  the Node comparison (mid then dir), with insert a no-op on an existing
  key exactly as std::set::insert is.
-/

namespace CKnot

/-- 2D vector, modelling struct vec2 of cknot.hpp with exact rational coordinates. -/
structure vec2 where
  x : ℚ
  y : ℚ
deriving DecidableEq, Repr

instance : Inhabited vec2 := ⟨⟨0, 0⟩⟩

/-- vec2 operator+ -/
def vec2.add (a b : vec2) : vec2 := ⟨a.x + b.x, a.y + b.y⟩

/-- vec2 operator- -/
def vec2.sub (a b : vec2) : vec2 := ⟨a.x - b.x, a.y - b.y⟩

/-- vec2 operator* (scalar) -/
def vec2.scale (a : vec2) (r : ℚ) : vec2 := ⟨a.x * r, a.y * r⟩

/-- vec2 operator<: lexicographic by x then y, the strict order used for set and map keys. -/
def vec2.lt (a b : vec2) : Bool :=
  if a.x = b.x then decide (a.y < b.y) else decide (a.x < b.x)

/-- enum StrokeType of cknot.hpp. -/
inductive StrokeType
  | Cross
  | Bounce
  | Glance
deriving DecidableEq, Repr

/-- struct Stroke of cknot.hpp. -/
structure Stroke where
  a : vec2
  b : vec2
  type : StrokeType
deriving DecidableEq, Repr

/-- Stroke::GetMid: mid = b - a, halved componentwise, added to a. -/
def Stroke.GetMid (s : Stroke) : vec2 :=
  let mid := s.b.sub s.a
  s.a.add ⟨mid.x / 2, mid.y / 2⟩

/-- enum Dir of cknot.cpp: the four direction tags of a port. -/
inductive Dir
  | fLeft
  | fRight
  | bLeft
  | bRight
deriving DecidableEq, Repr

/-- Numeric value of the enum tag, used by the Node comparison (dir < rhs.dir). -/
def Dir.toNat : Dir → Nat
  | .fLeft => 0
  | .fRight => 1
  | .bLeft => 2
  | .bRight => 3

/-- BounceDir of cknot.cpp: swaps front and back, keeps the side. -/
def BounceDir : Dir → Dir
  | .fLeft => .bLeft
  | .fRight => .bRight
  | .bRight => .fRight
  | .bLeft => .fLeft

/-- CrossDir of cknot.cpp: swaps both axes (diagonally opposite port). -/
def CrossDir : Dir → Dir
  | .fLeft => .bRight
  | .fRight => .bLeft
  | .bRight => .fLeft
  | .bLeft => .fRight

/-- GlanceDir of cknot.cpp: swaps left and right, keeps front or back. -/
def GlanceDir : Dir → Dir
  | .fLeft => .fRight
  | .fRight => .fLeft
  | .bRight => .bLeft
  | .bLeft => .bRight

/-- The switch on cur.type at lines 396-402: which direction function a stroke type applies. -/
def typeDir : StrokeType → Dir → Dir
  | .Bounce, d => BounceDir d
  | .Cross, d => CrossDir d
  | .Glance, d => GlanceDir d

/-- struct Node of cknot.cpp: one port.  The two Junction pointers are modelled by the
junction positions, faithful because the junction map allocates exactly one junction
per position, so pointer equality coincides with position equality. -/
structure Node where
  mid : vec2
  dir : Dir
  type : StrokeType
  normal : vec2
  left : vec2
  right : vec2
deriving DecidableEq, Repr

instance : Inhabited Node := ⟨⟨default, .fLeft, .Cross, default, default, default⟩⟩

/-- The key a std::set of Node compares: Node::operator< reads only mid and dir. -/
def nkey (n : Node) : vec2 × Dir := (n.mid, n.dir)

/-- Strict order on keys, mirroring Node::operator<. -/
def keyLt (k1 k2 : vec2 × Dir) : Bool :=
  if k1.1 = k2.1 then decide (k1.2.toNat < k2.2.toNat) else vec2.lt k1.1 k2.1

/-- Node::operator<. -/
def Node.ltKey (m n : Node) : Bool := keyLt (nkey m) (nkey n)

/-- Key equality as the set sees it: neither compares less. -/
def nsKeyEq (m n : Node) : Bool := decide (m.mid = n.mid) && decide (m.dir = n.dir)

/-- The key list of a node list. -/
def nsKeys (l : List Node) : List (vec2 × Dir) := l.map nkey

/-- std::set insert on the sorted-list model: ordered insert, no-op when the key exists. -/
def nsInsert : List Node → Node → List Node
  | [], n => [n]
  | x :: xs, n =>
    if Node.ltKey n x then n :: x :: xs
    else if Node.ltKey x n then x :: nsInsert xs n
    else x :: xs

/-- std::set erase by key (removes the stored element whose key matches, if any). -/
def nsErase : List Node → Node → List Node
  | [], _ => []
  | x :: xs, n => if nsKeyEq x n then xs else x :: nsErase xs n

/-- std::set find by key: returns the stored element. -/
def nsFind : List Node → Node → Option Node
  | [], _ => none
  | x :: xs, n => if nsKeyEq x n then some x else nsFind xs n

/-- std::set count as a Bool. -/
def nsCount (l : List Node) (n : Node) : Bool := (nsFind l n).isSome

/-- find with the key given as a midpoint and a direction (the Node(next, dir) probe). -/
def nsFindKey (l : List Node) (m : vec2) (d : Dir) : Option Node :=
  nsFind l ⟨m, d, .Cross, default, default, default⟩

/-- The junction map: association list from a junction position to its incident
midpoint list, modelling std::map of vec2 to Junction. -/
abbrev JunctionMap := List (vec2 × List vec2)

/-- Junction lookup by position; an absent junction yields the empty incident list. -/
def jmLookup (J : JunctionMap) (p : vec2) : List vec2 :=
  match J.find? (fun e => decide (e.1 = p)) with
  | some e => e.2
  | none => []

/-- Look up or create the junction at p and push_back the midpoint into its list. -/
def jmAdd (J : JunctionMap) (p mid : vec2) : JunctionMap :=
  match J with
  | [] => [(p, [mid])]
  | e :: rest => if e.1 = p then (e.1, e.2 ++ [mid]) :: rest else e :: jmAdd rest p mid

/-- One stable-insert step of the incident-list sort (std::list::sort is stable). -/
def sortIns (lt : vec2 → vec2 → Bool) (x : vec2) : List vec2 → List vec2
  | [] => [x]
  | y :: ys => if lt x y then x :: y :: ys else y :: sortIns lt x ys

/-- Stable insertion sort by the comparator lt, ascending. -/
def sortByLt (lt : vec2 → vec2 → Bool) (l : List vec2) : List vec2 :=
  l.foldl (fun acc x => sortIns lt x acc) []

/-- Sort every junction incident list by angle around its position (lines 318-321).
The angle comparator (VecAngleComp, comparing atan2 values) is transcendental and is
an abstract parameter; every theorem holds for all comparators. -/
def jmSortAll (angleLt : vec2 → vec2 → vec2 → Bool) (J : JunctionMap) : JunctionMap :=
  J.map (fun e => (e.1, sortByLt (angleLt e.1) e.2))

/-- struct Graph of cknot.cpp. -/
structure Graph where
  unused : List Node
  junctions : JunctionMap
deriving Repr

/-- One iteration of the stroke loop in Graph::Graph (lines 271-322): create or extend
the two endpoint junctions, insert the four ports of the stroke midpoint, and re-sort
every junction incident list. -/
def mkGraphStep (angleLt : vec2 → vec2 → vec2 → Bool) (g : Graph) (s : Stroke) : Graph :=
  let mid := s.GetMid
  let d := s.b.sub s.a
  let normal : vec2 := ⟨-d.y, d.x⟩
  let J1 := jmAdd g.junctions s.a mid
  let J2 := jmAdd J1 s.b mid
  let base : Node := ⟨mid, .fLeft, s.type, normal, s.a, s.b⟩
  let u1 := nsInsert g.unused base
  let u2 := nsInsert u1 {base with dir := .fRight}
  let u3 := nsInsert u2 {base with dir := .bLeft}
  let u4 := nsInsert u3 {base with dir := .bRight}
  ⟨u4, jmSortAll angleLt J2⟩

/-- Graph::Graph: fold the stroke list through mkGraphStep starting from the empty graph. -/
def mkGraph (angleLt : vec2 → vec2 → vec2 → Bool) (strokes : List Stroke) : Graph :=
  strokes.foldl (mkGraphStep angleLt) ⟨[], []⟩

/-- Junction::FindNext: locate v in the incident list (first occurrence, as std::find)
and step to the cyclic successor when clockwise, the cyclic predecessor otherwise;
return v unchanged when v is absent. -/
def FindNext (mids : List vec2) (v : vec2) (clockwise : Bool) : vec2 :=
  match mids.findIdx? (fun m => decide (m = v)) with
  | none => v
  | some i =>
    if clockwise then
      if i + 1 < mids.length then mids.getD (i + 1) v else mids.headD v
    else
      if i = 0 then mids.getLastD v else mids.getD (i - 1) v

/-- Traversal state of CreateThread: the two port sets, the over/under flag, the three
sample accumulators, and the instrumented list of port keys removed from the unused set
(one entry per sample-consuming removal; instrumentation only, it influences nothing). -/
structure TState where
  unused : List Node
  unusedUp : List Node
  up : Bool
  thread : List vec2
  angles : List vec2
  zs : List ℚ
  visited : List (vec2 × Dir)
deriving Repr

/-- Result of one inner-loop iteration: a fatal assert, the loop breaking (thread done),
or continuing with the next entry port. -/
inductive StepRes
  | err : StepRes
  | done : TState → StepRes
  | cont : Node → TState → StepRes

/-- Line 459: step clockwise exactly when the exit direction is fLeft or bRight. -/
def exitClockwise (d : Dir) : Bool := d = Dir.fLeft || d = Dir.bRight

/-- Lines 456-457: for non-Bounce types the next junction is the one we were not just
at; for Bounce it stays the entry junction. -/
def exitJunction (n : Node) (j : vec2) : vec2 :=
  if n.type ≠ StrokeType.Bounce then (if j = n.right then n.left else n.right) else j

/-- Lines 370-384: when passing under an unused Cross midpoint, record that the
crossing sibling ports (the glance sibling and its cross sibling) must later be
traversed from above.  The assert at line 381 is modelled as the error case. -/
def markAbove (up : Bool) (cur : Node) (unused unusedUp : List Node) :
    Except Unit (List Node) :=
  if up = false ∧ cur.type = StrokeType.Cross then
    let above : Node := {cur with dir := GlanceDir cur.dir}
    if nsCount unused above then
      let uu := nsInsert unusedUp above
      let above2 : Node := {above with dir := CrossDir above.dir}
      if nsCount unused above2 then Except.ok (nsInsert uu above2) else Except.error ()
    else Except.ok unusedUp
  else Except.ok unusedUp

/-- Line 393: the entry junction is the left one for a left direction, else the right. -/
def entryJunction (cur : Node) : vec2 :=
  if cur.dir = Dir.fLeft ∨ cur.dir = Dir.bLeft then cur.left else cur.right

/-- Line 415: the up flag flips exactly at a Cross midpoint. -/
def nextUp (up : Bool) (ex : Node) : Bool :=
  if ex.type = StrokeType.Cross then !up else up

/-- The emitted sample point (lines 413-449), from the exit-direction node. -/
def samplePoint (ex : Node) : vec2 :=
  let isFront := ex.dir = Dir.fLeft ∨ ex.dir = Dir.fRight
  let isLeft := ex.dir = Dir.fLeft ∨ ex.dir = Dir.bLeft
  match ex.type with
  | .Cross => ex.mid
  | .Glance => ex.mid.add (ex.normal.scale (if isFront then (1 : ℚ)/4 else -((1 : ℚ)/4)))
  | .Bounce => ex.mid.add ((ex.left.sub ex.right).scale (if isLeft then (1 : ℚ)/4 else -((1 : ℚ)/4)))

/-- The emitted per-knot tangent (lines 419-453).  crossVec abstracts the rotated,
scaled normal of the Cross branch (transcendental); the other branches are exact. -/
def sampleTangent (crossVec : vec2 → Dir → vec2) (ex : Node) : vec2 :=
  let isFront := ex.dir = Dir.fLeft ∨ ex.dir = Dir.fRight
  let isLeft := ex.dir = Dir.fLeft ∨ ex.dir = Dir.bLeft
  match ex.type with
  | .Cross => crossVec ex.normal ex.dir
  | .Glance => (ex.left.sub ex.right).scale (if isLeft then (3 : ℚ)/10 else -((3 : ℚ)/10))
  | .Bounce => ex.normal.scale (if isFront then (3 : ℚ)/10 else -((3 : ℚ)/10))

/-- Lines 462-491: probe the next midpoint from the right first (fRight or bRight by
the step direction); when absent try the diagonal; when found directly, verify the
stored right junction matches the junction just exited, flipping by CrossDir when it
does not, and end the thread when the flipped port is not unused.  none means break. -/
def chooseNext (un2 : List Node) (next : vec2) (d0 : Dir) (j1 : vec2) : Option Node :=
  match nsFindKey un2 next d0 with
  | none =>
    match nsFindKey un2 next (CrossDir d0) with
    | none => none
    | some c => some c
  | some c =>
    if c.right ≠ j1 then
      if nsCount un2 {c with dir := CrossDir c.dir} = false then none
      else some {c with dir := CrossDir c.dir}
    else some c

/-- One iteration of the inner while loop of CreateThread (lines 366-492).  The two
asserts at lines 389 and 406 are modelled as the err case.  crossVec is the abstract
parameter for the rotated, scaled normal emitted at a Cross midpoint (lines 419-433,
transcendental); the emitted point and all control flow are exact. -/
def innerStep (J : JunctionMap) (crossVec : vec2 → Dir → vec2) (cur : Node)
    (st : TState) : StepRes :=
  match markAbove st.up cur st.unused st.unusedUp with
  | .error _ => .err
  | .ok uu1 =>
    if nsCount st.unused cur = false then .err else
    if nsCount (nsErase st.unused cur) {cur with dir := typeDir cur.type cur.dir} = false
    then .err else
    let ex : Node := {cur with dir := typeDir cur.type cur.dir}
    let un2 := nsErase (nsErase st.unused cur) ex
    let base : TState :=
      ⟨un2, nsErase (nsErase uu1 cur) ex, nextUp st.up ex,
       st.thread ++ [samplePoint ex], st.angles ++ [sampleTangent crossVec ex],
       st.zs ++ [if st.up then (1 : ℚ) else 0], st.visited ++ [nkey cur, nkey ex]⟩
    let j1 := exitJunction ex (entryJunction cur)
    let cw := exitClockwise ex.dir
    let next := FindNext (jmLookup J j1) ex.mid cw
    let d0 := if cw then Dir.fRight else Dir.bRight
    match chooseNext un2 next d0 j1 with
    | none => .done base
    | some c => .cont c base

/-- The inner while loop, with fuel (the loop strictly shrinks the unused set by two
ports per iteration, so any fuel above the unused size suffices; running out of fuel
is treated like an assert). -/
def innerLoopF (J : JunctionMap) (crossVec : vec2 → Dir → vec2) :
    Nat → Node → TState → Except Unit TState
  | 0, _, _ => .error ()
  | fuel + 1, cur, st =>
    match innerStep J crossVec cur st with
    | .err => .error ()
    | .done st' => .ok st'
    | .cont cur' st' => innerLoopF J crossVec fuel cur' st'

/-- One closed thread as packaged at line 505: the knot parameters, the sample points
and the per-knot tangents of the Hermite spline. -/
structure ThreadOut where
  xs : List ℚ
  points : List vec2
  tangents : List vec2
deriving DecidableEq, Repr

instance : Inhabited ThreadOut := ⟨⟨[], [], []⟩⟩

/-- One over/under step curve as packaged at line 506. -/
structure ZOut where
  xs : List ℚ
  zvals : List ℚ
deriving DecidableEq, Repr

instance : Inhabited ZOut := ⟨⟨[], []⟩⟩

/-- The Art result: the thread vector, the Z vector, and the instrumented per-thread
list of consumed port keys. -/
structure ArtOut where
  threads : List ThreadOut
  zsCurves : List ZOut
  visits : List (List (vec2 × Dir))
deriving DecidableEq, Repr

/-- Art::GetThreadCount. -/
def ArtOut.GetThreadCount (a : ArtOut) : Nat := a.threads.length

/-- Art::GetZ: the assert checks the index against GetThreadCount (the thread vector
size), then indexes the Z vector; the assert is modelled as none. -/
def ArtOut.GetZ (a : ArtOut) (i : Nat) : Option ZOut :=
  if i < a.GetThreadCount then some (a.zsCurves.getD i default) else none

/-- The knot parameter list built at lines 496-499: i / frames for i below frames,
then an explicit closing knot at 1. -/
def uniformXs (frames : Nat) : List ℚ :=
  List.map (fun i : Nat => (i : ℚ) / (frames : ℚ)) (List.range frames) ++ [1]

/-- Lines 358-364: the starting port of a thread is the least element of the
crossed-from-below set when that set is non-empty (std::set begin), otherwise the
least element of the unused set; up starts true exactly when the first set was
non-empty. -/
def pickStart (unused unusedUp : List Node) : Node × Bool :=
  (if unusedUp.isEmpty then unused.headD default else unusedUp.headD default,
   !unusedUp.isEmpty)

/-- The outer while loop of CreateThread (lines 347-509), with fuel. -/
def outerLoopF (J : JunctionMap) (crossVec : vec2 → Dir → vec2) :
    Nat → List Node → List Node → ArtOut → Except Unit ArtOut
  | 0, _, _, _ => .error ()
  | fuel + 1, unused, unusedUp, acc =>
    if unused.isEmpty && unusedUp.isEmpty then .ok acc
    else
      let pick := pickStart unused unusedUp
      let st0 : TState := ⟨unused, unusedUp, pick.2, [], [], [], []⟩
      match innerLoopF J crossVec (unused.length + 1) pick.1 st0 with
      | .error _ => .error ()
      | .ok st =>
        let frames := st.thread.length
        let xs := uniformXs frames
        let points := st.thread ++ [st.thread.headD default]
        let tangents := st.angles ++ [st.angles.headD default]
        let zvals := st.zs ++ [st.zs.headD 0]
        let acc' : ArtOut :=
          ⟨acc.threads ++ [⟨xs, points, tangents⟩],
           acc.zsCurves ++ [⟨xs, zvals⟩],
           acc.visits ++ [st.visited]⟩
        outerLoopF J crossVec fuel st.unused st.unusedUp acc'

/-- CKnot::CreateThread, parameterized by the abstract angle comparator and the
abstract Cross-sample normal rotation. -/
def CreateThread (angleLt : vec2 → vec2 → vec2 → Bool)
    (crossVec : vec2 → Dir → vec2) (strokes : List Stroke) : Except Unit ArtOut :=
  let g := mkGraph angleLt strokes
  outerLoopF g.junctions crossVec (g.unused.length + 1) g.unused [] ⟨[], [], []⟩

/-- Total number of sample-consuming port removals across all produced threads. -/
def totalVisits (a : ArtOut) : Nat := (a.visits.map List.length).sum

/-- Spline::Function::Mod over exact rationals (spline.hpp lines 38-55). -/
def qmod (i start stop : ℚ) : ℚ :=
  let range := stop - start
  let d1 := |(i - start) / range|
  let d2 := d1 - (⌊d1⌋ : ℚ)
  let d3 := d2 * range
  if i ≥ start then d3 + start else stop - d3

/-- Spline::GetIndex for a looping spline: wrap x into the knot range, then return the
unique bracketing index.  The mutable last-index cache of the source only changes where
the search starts, not the index it converges to, so the search is modelled by a scan
from index zero. -/
def getIndexLoop (xs : List ℚ) (x : ℚ) : Nat :=
  let w := qmod x (xs.headD 0) (xs.getLastD 0)
  match (List.range (xs.length - 1)).find?
      (fun i => decide (xs.getD i 0 ≤ w ∧ w < xs.getD (i + 1) 0)) with
  | some i => i
  | none => 0

/-- Spline::GetSubRange for a looping spline. -/
def getSubRange (xs : List ℚ) (i : Nat) (x : ℚ) : ℚ :=
  let d := qmod x (xs.headD 0) (xs.getLastD 0)
  (d - xs.getD i 0) / (xs.getD (i + 1) 0 - xs.getD i 0)

/-- Evaluation of the over/under step curve: LocalSpline with the NearestNeighbor
kernel (jump at one half), as Spline::Step. -/
def stepY (z : ZOut) (x : ℚ) : ℚ :=
  let i := getIndexLoop z.xs x
  let t := getSubRange z.xs i x
  if t < 1/2 then z.zvals.getD i 0 else z.zvals.getD (i + 1) 0

/-- A stand-in angle comparator for concrete runs; all theorems hold for every comparator. -/
def angleLt0 : vec2 → vec2 → vec2 → Bool := fun _ _ _ => false

/-- A stand-in Cross-sample normal for concrete runs; all theorems hold for every choice. -/
def crossVec0 : vec2 → Dir → vec2 := fun _ _ => ⟨0, 0⟩

/-- Concrete single Cross stroke from the origin to (2,0). -/
def stroke0 : Stroke := ⟨⟨0, 0⟩, ⟨2, 0⟩, .Cross⟩

/-- Concrete crossing diagonals: two distinct nonzero-length strokes sharing the
midpoint (1,1). -/
def diagStrokes : List Stroke := [⟨⟨0, 0⟩, ⟨2, 2⟩, .Cross⟩, ⟨⟨0, 2⟩, ⟨2, 0⟩, .Cross⟩]

/-- Concrete zero-length stroke. -/
def degStroke : Stroke := ⟨⟨0, 0⟩, ⟨0, 0⟩, .Cross⟩

/-- The payload of a port: everything outside the set key (type, normal, junctions). -/
def plData (n : Node) : StrokeType × vec2 × vec2 × vec2 := (n.type, n.normal, n.left, n.right)

/-- A node list sorted strictly by the Node comparison, the representation invariant of
the sorted-list model of std::set. -/
def nsSorted (l : List Node) : Prop := l.Pairwise (fun m n => Node.ltKey m n = true)

instance nsSortedDecidable (l : List Node) : Decidable (nsSorted l) :=
  inferInstanceAs (Decidable (l.Pairwise (fun m n => Node.ltKey m n = true)))

/-- A key list closed under changing the direction tag: every midpoint present carries
all four of its ports. -/
def Quad (ks : List (vec2 × Dir)) : Prop := ∀ k ∈ ks, ∀ d : Dir, (k.1, d) ∈ ks

/-- The traversal invariant, relative to a payload assignment per midpoint:
both sets are sorted; every crossed-from-below port is still an unused port;
every stored payload agrees with the payload of its midpoint; and the unused set is
closed under the exit-direction pairing of its own stroke types. -/
def InvP (pay : vec2 → StrokeType × vec2 × vec2 × vec2)
    (unused unusedUp : List Node) : Prop :=
  nsSorted unused ∧ nsSorted unusedUp ∧
  (∀ n ∈ unusedUp, nkey n ∈ nsKeys unused) ∧
  (∀ n ∈ unused, plData n = pay n.mid) ∧
  (∀ n ∈ unusedUp, plData n = pay n.mid) ∧
  (∀ n ∈ unused, (n.mid, typeDir n.type n.dir) ∈ nsKeys unused)

/-- The traversal invariant with the payload assignment abstracted. -/
def Inv (unused unusedUp : List Node) : Prop := ∃ pay, InvP pay unused unusedUp

/-- The entry port about to be consumed is a live key of the unused set and carries
the payload of its midpoint. -/
def curOKP (pay : vec2 → StrokeType × vec2 × vec2 × vec2)
    (cur : Node) (unused : List Node) : Prop :=
  nkey cur ∈ nsKeys unused ∧ plData cur = pay cur.mid

/-- What one inner-loop iteration does to the traversal state: one sample appended to
each accumulator, two port keys moved from the unused set to the visited list. -/
def Post (st st' : TState) : Prop :=
  st'.thread.length = st.thread.length + 1 ∧
  st'.angles.length = st.angles.length + 1 ∧
  st'.zs.length = st.zs.length + 1 ∧
  st'.visited.length = st.visited.length + 2 ∧
  (↑(nsKeys st'.unused) + ↑st'.visited : Multiset (vec2 × Dir)) =
    ↑(nsKeys st.unused) + ↑st.visited ∧
  st'.unused.length + 2 = st.unused.length

/-- What a full inner loop does: k iterations for some positive k. -/
def MPost (st st' : TState) : Prop :=
  ∃ k : Nat, 1 ≤ k ∧
    st'.thread.length = st.thread.length + k ∧
    st'.angles.length = st.angles.length + k ∧
    st'.zs.length = st.zs.length + k ∧
    st'.visited.length = st.visited.length + 2 * k ∧
    (↑(nsKeys st'.unused) + ↑st'.visited : Multiset (vec2 × Dir)) =
      ↑(nsKeys st.unused) + ↑st.visited ∧
    st'.unused.length + 2 * k = st.unused.length

/-- Shape facts of one packaged thread: k samples plus the closing duplicate in each
of the three sequences, 2k consumed ports, the uniform knot vector, and the closing
sample equal to the first in all three sequences. -/
def TFact1 (t : ThreadOut) (z : ZOut) (v : List (vec2 × Dir)) : Prop :=
  ∃ k : Nat, 1 ≤ k ∧
    t.points.length = k + 1 ∧ t.tangents.length = k + 1 ∧ z.zvals.length = k + 1 ∧
    v.length = 2 * k ∧
    t.xs = uniformXs k ∧ z.xs = uniformXs k ∧
    t.points.getLastD default = t.points.headD default ∧
    t.tangents.getLastD default = t.tangents.headD default ∧
    z.zvals.getLastD 0 = z.zvals.headD 0

/-- Shape facts of the whole Art value. -/
def TFacts (a : ArtOut) : Prop :=
  a.threads.length = a.zsCurves.length ∧ a.visits.length = a.threads.length ∧
  ∀ i, i < a.threads.length →
    TFact1 (a.threads.getD i default) (a.zsCurves.getD i default) (a.visits.getD i [])

theorem vec2lt_iff {a b : vec2} : vec2.lt a b = true ↔
    (a.x = b.x ∧ a.y < b.y) ∨ (¬ a.x = b.x ∧ a.x < b.x) := by
  unfold vec2.lt
  split_ifs with h <;> simp [h]

theorem vec2lt_irrefl (a : vec2) : vec2.lt a a = false := by
  simp [vec2.lt]

theorem vec2lt_trans {a b c : vec2} (h1 : vec2.lt a b = true) (h2 : vec2.lt b c = true) :
    vec2.lt a c = true := by
  rw [vec2lt_iff] at h1 h2 ⊢
  rcases h1 with ⟨e1, l1⟩ | ⟨n1, l1⟩ <;> rcases h2 with ⟨e2, l2⟩ | ⟨n2, l2⟩
  · exact Or.inl ⟨e1.trans e2, lt_trans l1 l2⟩
  · exact Or.inr ⟨by rw [e1]; exact n2, by rw [e1]; exact l2⟩
  · exact Or.inr ⟨by rw [e2] at n1; exact n1, by rw [e2] at l1; exact l1⟩
  · exact Or.inr ⟨ne_of_lt (lt_trans l1 l2), lt_trans l1 l2⟩

theorem vec2lt_total {a b : vec2} (h1 : vec2.lt a b = false) (h2 : vec2.lt b a = false) :
    a = b := by
  unfold vec2.lt at h1 h2
  cases a with
  | mk ax ay =>
    cases b with
    | mk bx by' =>
      simp only at h1 h2
      by_cases h : ax = bx
      · subst h
        rw [if_pos rfl] at h1 h2
        simp only [decide_eq_false_iff_not, not_lt] at h1 h2
        rw [le_antisymm h2 h1]
      · rw [if_neg h] at h1
        rw [if_neg (fun hh => h hh.symm)] at h2
        simp only [decide_eq_false_iff_not, not_lt] at h1 h2
        exact absurd (le_antisymm h2 h1) h

theorem dir_toNat_inj {d1 d2 : Dir} (h : d1.toNat = d2.toNat) : d1 = d2 := by
  cases d1 <;> cases d2 <;> simp_all [Dir.toNat]

theorem keyLt_iff {k1 k2 : vec2 × Dir} : keyLt k1 k2 = true ↔
    (k1.1 = k2.1 ∧ k1.2.toNat < k2.2.toNat) ∨ (¬ k1.1 = k2.1 ∧ vec2.lt k1.1 k2.1 = true) := by
  unfold keyLt
  split_ifs with h <;> simp [h]

theorem keyLt_irrefl (k : vec2 × Dir) : keyLt k k = false := by
  simp [keyLt, vec2lt_irrefl]

theorem keyLt_trans {k1 k2 k3 : vec2 × Dir} (h1 : keyLt k1 k2 = true)
    (h2 : keyLt k2 k3 = true) : keyLt k1 k3 = true := by
  rw [keyLt_iff] at h1 h2 ⊢
  rcases h1 with ⟨e1, l1⟩ | ⟨n1, l1⟩ <;> rcases h2 with ⟨e2, l2⟩ | ⟨n2, l2⟩
  · exact Or.inl ⟨e1.trans e2, lt_trans l1 l2⟩
  · exact Or.inr ⟨by rw [e1]; exact n2, by rw [e1]; exact l2⟩
  · exact Or.inr ⟨by rw [e2] at n1; exact n1, by rw [e2] at l1; exact l1⟩
  · refine Or.inr ⟨?_, vec2lt_trans l1 l2⟩
    intro he
    have := vec2lt_trans l1 l2
    rw [he] at this
    rw [vec2lt_irrefl] at this
    exact Bool.noConfusion this

theorem keyLt_total {k1 k2 : vec2 × Dir} (h1 : keyLt k1 k2 = false)
    (h2 : keyLt k2 k1 = false) : k1 = k2 := by
  unfold keyLt at h1 h2
  cases k1 with
  | mk v1 d1 =>
    cases k2 with
    | mk v2 d2 =>
      simp only [Prod.mk.injEq]
      by_cases h : v1 = v2
      · subst h
        rw [if_pos rfl] at h1 h2
        simp only [decide_eq_false_iff_not, not_lt] at h1 h2
        exact ⟨rfl, dir_toNat_inj (le_antisymm h2 h1)⟩
      · rw [if_neg h] at h1
        rw [if_neg (fun hh => h hh.symm)] at h2
        exact absurd (vec2lt_total h1 h2) h

theorem keyLt_asymm {k1 k2 : vec2 × Dir} (h : keyLt k1 k2 = true) : keyLt k2 k1 = false := by
  cases hb : keyLt k2 k1
  · rfl
  · have := keyLt_trans h hb
    rw [keyLt_irrefl] at this
    exact Bool.noConfusion this

theorem nodeLt_trans {a b c : Node} (h1 : Node.ltKey a b = true)
    (h2 : Node.ltKey b c = true) : Node.ltKey a c = true := keyLt_trans h1 h2

theorem nsKeyEq_iff {m n : Node} : nsKeyEq m n = true ↔ nkey m = nkey n := by
  simp [nsKeyEq, nkey, Prod.ext_iff]

theorem mem_nsKeys {l : List Node} {k : vec2 × Dir} :
    k ∈ nsKeys l ↔ ∃ n ∈ l, nkey n = k := by
  simp [nsKeys]

theorem nkey_mem_nsKeys {l : List Node} {n : Node} (h : n ∈ l) : nkey n ∈ nsKeys l :=
  List.mem_map_of_mem _ h

theorem nsKeys_append (l1 l2 : List Node) : nsKeys (l1 ++ l2) = nsKeys l1 ++ nsKeys l2 := by
  simp [nsKeys]

theorem nsFind_eq_some {l : List Node} {n c : Node} (h : nsFind l n = some c) :
    c ∈ l ∧ nkey c = nkey n := by
  induction l with
  | nil => simp [nsFind] at h
  | cons x xs ih =>
    rw [nsFind] at h
    by_cases hx : nsKeyEq x n = true
    · rw [if_pos hx] at h
      cases h
      exact ⟨List.mem_cons_self _ _, nsKeyEq_iff.mp hx⟩
    · rw [if_neg hx] at h
      obtain ⟨h1, h2⟩ := ih h
      exact ⟨List.mem_cons_of_mem _ h1, h2⟩

theorem nsFind_eq_none {l : List Node} {n : Node} :
    nsFind l n = none ↔ nkey n ∉ nsKeys l := by
  induction l with
  | nil => simp [nsFind, nsKeys]
  | cons x xs ih =>
    by_cases hx : nsKeyEq x n = true
    · have hke := nsKeyEq_iff.mp hx
      simp only [nsFind, if_pos hx, nsKeys, List.map_cons, List.mem_cons]
      constructor
      · intro hh
        exact Option.noConfusion hh
      · intro hh
        exact absurd (Or.inl hke.symm) hh
    · have hne : nkey x ≠ nkey n := fun hh => hx (nsKeyEq_iff.mpr hh)
      simp only [nsFind, if_neg hx, nsKeys, List.map_cons, List.mem_cons]
      rw [ih]
      simp only [nsKeys]
      constructor
      · intro hh hc
        rcases hc with hc | hc
        · exact hne hc.symm
        · exact hh hc
      · intro hh hc
        exact hh (Or.inr hc)

theorem nsCount_true_iff {l : List Node} {n : Node} :
    nsCount l n = true ↔ nkey n ∈ nsKeys l := by
  unfold nsCount
  cases hf : nsFind l n with
  | none => simp [nsFind_eq_none.mp hf]
  | some c =>
    simp only [Option.isSome_some, true_iff]
    obtain ⟨h1, h2⟩ := nsFind_eq_some hf
    rw [← h2]
    exact nkey_mem_nsKeys h1

theorem nsCount_false_iff {l : List Node} {n : Node} :
    nsCount l n = false ↔ nkey n ∉ nsKeys l := by
  rw [Bool.eq_false_iff]
  exact not_congr nsCount_true_iff

theorem nsFindKey_eq_some {l : List Node} {m : vec2} {d : Dir} {c : Node}
    (h : nsFindKey l m d = some c) : c ∈ l ∧ c.mid = m ∧ c.dir = d := by
  obtain ⟨h1, h2⟩ := nsFind_eq_some h
  have hm : c.mid = m := congrArg Prod.fst h2
  have hd : c.dir = d := congrArg Prod.snd h2
  exact ⟨h1, hm, hd⟩

theorem nsFindKey_eq_none {l : List Node} {m : vec2} {d : Dir} :
    nsFindKey l m d = none ↔ (m, d) ∉ nsKeys l := nsFind_eq_none

theorem key_mem_tail {x : Node} {xs : List Node} {n : Node}
    (h : nkey n ∈ nsKeys (x :: xs)) (hne : nkey x ≠ nkey n) : nkey n ∈ nsKeys xs := by
  rcases mem_nsKeys.mp h with ⟨m, hm, hkm⟩
  rcases List.mem_cons.mp hm with rfl | hm2
  · exact absurd hkm hne
  · exact mem_nsKeys.mpr ⟨m, hm2, hkm⟩

theorem nodup_keys_cons {x : Node} {xs : List Node} (hnd : (nsKeys (x :: xs)).Nodup) :
    nkey x ∉ nsKeys xs ∧ (nsKeys xs).Nodup := by
  simp only [nsKeys, List.map_cons, List.nodup_cons] at hnd
  exact hnd

theorem nsErase_sublist (l : List Node) (n : Node) : List.Sublist (nsErase l n) l := by
  induction l with
  | nil => exact List.Sublist.refl []
  | cons x xs ih =>
    rw [nsErase]
    by_cases hx : nsKeyEq x n = true
    · rw [if_pos hx]
      exact List.sublist_cons_self x xs
    · rw [if_neg hx]
      exact ih.cons₂ x

theorem mem_of_mem_nsErase {l : List Node} {n m : Node} (h : m ∈ nsErase l n) : m ∈ l :=
  (nsErase_sublist l n).subset h

theorem nsErase_sorted {l : List Node} {n : Node} (hs : nsSorted l) :
    nsSorted (nsErase l n) := hs.sublist (nsErase_sublist l n)

theorem length_nsErase_of_mem {l : List Node} {n : Node} (h : nkey n ∈ nsKeys l) :
    (nsErase l n).length + 1 = l.length := by
  induction l with
  | nil => simp [nsKeys] at h
  | cons x xs ih =>
    by_cases hx : nsKeyEq x n = true
    · simp [nsErase, hx]
    · have hne : nkey x ≠ nkey n := fun hh => hx (nsKeyEq_iff.mpr hh)
      have hmem : nkey n ∈ nsKeys xs := key_mem_tail h hne
      simp only [nsErase, if_neg hx, List.length_cons]
      rw [← ih hmem]

theorem keys_nsErase_cons_perm {l : List Node} {n : Node} (h : nkey n ∈ nsKeys l) :
    (nkey n :: nsKeys (nsErase l n)).Perm (nsKeys l) := by
  induction l with
  | nil => simp [nsKeys] at h
  | cons x xs ih =>
    by_cases hx : nsKeyEq x n = true
    · have hke := nsKeyEq_iff.mp hx
      simp only [nsErase, if_pos hx, nsKeys, List.map_cons]
      rw [← hke]
    · have hne : nkey x ≠ nkey n := fun hh => hx (nsKeyEq_iff.mpr hh)
      have hmem : nkey n ∈ nsKeys xs := key_mem_tail h hne
      simp only [nsErase, if_neg hx, nsKeys, List.map_cons]
      exact (List.Perm.swap _ _ _).trans ((ih hmem).cons _)

theorem mem_nsErase_iff {l : List Node} {n m : Node} (hnd : (nsKeys l).Nodup) :
    m ∈ nsErase l n ↔ m ∈ l ∧ nkey m ≠ nkey n := by
  induction l with
  | nil => simp [nsErase]
  | cons x xs ih =>
    have hnd2 := nodup_keys_cons hnd
    by_cases hx : nsKeyEq x n = true
    · have hke := nsKeyEq_iff.mp hx
      simp only [nsErase, if_pos hx, List.mem_cons]
      constructor
      · intro hm
        refine ⟨Or.inr hm, ?_⟩
        intro he
        apply hnd2.1
        rw [hke, ← he]
        exact nkey_mem_nsKeys hm
      · rintro ⟨hm | hm, hne⟩
        · exact absurd (hm ▸ hke) hne
        · exact hm
    · have hne : nkey x ≠ nkey n := fun hh => hx (nsKeyEq_iff.mpr hh)
      simp only [nsErase, if_neg hx, List.mem_cons, ih hnd2.2]
      constructor
      · rintro (rfl | ⟨hm, hmn⟩)
        · exact ⟨Or.inl rfl, hne⟩
        · exact ⟨Or.inr hm, hmn⟩
      · rintro ⟨rfl | hm, hmn⟩
        · exact Or.inl rfl
        · exact Or.inr ⟨hm, hmn⟩

theorem key_mem_nsErase_iff {l : List Node} {n : Node} {k : vec2 × Dir}
    (hnd : (nsKeys l).Nodup) :
    k ∈ nsKeys (nsErase l n) ↔ k ∈ nsKeys l ∧ k ≠ nkey n := by
  simp only [mem_nsKeys]
  constructor
  · rintro ⟨m, hm, rfl⟩
    obtain ⟨h1, h2⟩ := (mem_nsErase_iff hnd).mp hm
    exact ⟨⟨m, h1, rfl⟩, h2⟩
  · rintro ⟨⟨m, hm, rfl⟩, hk⟩
    exact ⟨m, (mem_nsErase_iff hnd).mpr ⟨hm, hk⟩, rfl⟩

theorem mem_nsInsert {l : List Node} {n m : Node} (h : m ∈ nsInsert l n) :
    m = n ∨ m ∈ l := by
  induction l with
  | nil => simpa [nsInsert] using h
  | cons x xs ih =>
    rw [nsInsert] at h
    split_ifs at h with h1 h2
    · rcases List.mem_cons.mp h with rfl | hm
      · exact Or.inl rfl
      · exact Or.inr hm
    · rcases List.mem_cons.mp h with rfl | hm
      · exact Or.inr (List.mem_cons_self _ _)
      · rcases ih hm with rfl | hm2
        · exact Or.inl rfl
        · exact Or.inr (List.mem_cons_of_mem _ hm2)
    · exact Or.inr h

theorem mem_nsInsert_of_mem {l : List Node} {n m : Node} (h : m ∈ l) : m ∈ nsInsert l n := by
  induction l with
  | nil => simp at h
  | cons x xs ih =>
    rw [nsInsert]
    split_ifs with h1 h2
    · exact List.mem_cons_of_mem _ h
    · rcases List.mem_cons.mp h with rfl | hm
      · exact List.mem_cons_self _ _
      · exact List.mem_cons_of_mem _ (ih hm)
    · exact h

theorem mem_nsInsert_iff_of_not_key {l : List Node} {n m : Node}
    (h : nkey n ∉ nsKeys l) : m ∈ nsInsert l n ↔ m = n ∨ m ∈ l := by
  constructor
  · exact mem_nsInsert
  · rintro (rfl | hm)
    · induction l with
      | nil => simp [nsInsert]
      | cons x xs ih =>
        rw [nsInsert]
        split_ifs with h1 h2
        · exact List.mem_cons_self _ _
        · refine List.mem_cons_of_mem _ (ih ?_)
          intro hmem
          exact h (by simpa [nsKeys] using Or.inr hmem)
        · exfalso
          apply h
          have : nkey x = nkey m := keyLt_total (by simpa using h2) (by simpa using h1)
          exact this ▸ (by simp [nsKeys])
    · exact mem_nsInsert_of_mem hm

theorem nsInsert_sorted {l : List Node} {n : Node} (hs : nsSorted l) :
    nsSorted (nsInsert l n) := by
  induction l with
  | nil =>
    rw [nsInsert]
    exact List.pairwise_singleton _ _
  | cons x xs ih =>
    rw [nsSorted, List.pairwise_cons] at hs
    obtain ⟨hx, hxs⟩ := hs
    rw [nsInsert]
    split_ifs with h1 h2
    · rw [nsSorted, List.pairwise_cons]
      constructor
      · intro m hm
        rcases List.mem_cons.mp hm with rfl | hm
        · exact h1
        · exact nodeLt_trans h1 (hx m hm)
      · exact List.pairwise_cons.mpr ⟨hx, hxs⟩
    · rw [nsSorted, List.pairwise_cons]
      constructor
      · intro m hm
        rcases mem_nsInsert hm with rfl | hm
        · exact h2
        · exact hx m hm
      · exact ih hxs
    · exact List.pairwise_cons.mpr ⟨hx, hxs⟩

theorem nsInsert_eq_of_key_mem {l : List Node} {n : Node} (hs : nsSorted l)
    (h : nkey n ∈ nsKeys l) : nsInsert l n = l := by
  induction l with
  | nil => simp [nsKeys] at h
  | cons x xs ih =>
    rw [nsSorted, List.pairwise_cons] at hs
    obtain ⟨hx, hxs⟩ := hs
    rcases eq_or_ne (nkey x) (nkey n) with hk | hkne
    · have h1 : ¬ Node.ltKey n x = true := by
        unfold Node.ltKey
        rw [hk, keyLt_irrefl]
        exact Bool.noConfusion
      have h2 : ¬ Node.ltKey x n = true := by
        unfold Node.ltKey
        rw [hk, keyLt_irrefl]
        exact Bool.noConfusion
      rw [nsInsert, if_neg h1, if_neg h2]
    · have hk2 : nkey n ∈ nsKeys xs := key_mem_tail h hkne
      obtain ⟨m, hm, hkm⟩ := mem_nsKeys.mp hk2
      have hxm : Node.ltKey x m = true := hx m hm
      have hxn : Node.ltKey x n = true := by
        unfold Node.ltKey at hxm ⊢
        rw [← hkm]
        exact hxm
      have h1 : ¬ Node.ltKey n x = true := by
        intro hc
        have := keyLt_trans hc hxn
        rw [keyLt_irrefl] at this
        exact Bool.noConfusion this
      rw [nsInsert, if_neg h1, if_pos hxn, ih hxs hk2]

theorem nsSorted_nodup_keys {l : List Node} (hs : nsSorted l) : (nsKeys l).Nodup := by
  induction l with
  | nil => simp [nsKeys]
  | cons x xs ih =>
    rw [nsSorted, List.pairwise_cons] at hs
    obtain ⟨hx, hxs⟩ := hs
    simp only [nsKeys, List.map_cons, List.nodup_cons]
    refine ⟨?_, ih hxs⟩
    intro hmem
    obtain ⟨m, hm, hkm⟩ := mem_nsKeys.mp hmem
    have hlt := hx m hm
    unfold Node.ltKey at hlt
    rw [hkm, keyLt_irrefl] at hlt
    exact Bool.noConfusion hlt

theorem typeDir_ne (t : StrokeType) (d : Dir) : typeDir t d ≠ d := by
  cases t <;> cases d <;> simp [typeDir, BounceDir, CrossDir, GlanceDir]

theorem typeDir_invol (t : StrokeType) (d : Dir) : typeDir t (typeDir t d) = d := by
  cases t <;> cases d <;> rfl

theorem glance_cross_eq_bounce (d : Dir) : CrossDir (GlanceDir d) = BounceDir d := by
  cases d <;> rfl

theorem glance_ne_id (d : Dir) : GlanceDir d ≠ d := by
  cases d <;> simp [GlanceDir]

theorem glance_ne_cross (d : Dir) : GlanceDir d ≠ CrossDir d := by
  cases d <;> simp [GlanceDir, CrossDir]

theorem bounce_ne_id (d : Dir) : BounceDir d ≠ d := by
  cases d <;> simp [BounceDir]

theorem bounce_ne_cross (d : Dir) : BounceDir d ≠ CrossDir d := by
  cases d <;> simp [BounceDir, CrossDir]

theorem erase_cons_mset {l : List Node} {n : Node} (h : nkey n ∈ nsKeys l) :
    (nkey n ::ₘ ↑(nsKeys (nsErase l n)) : Multiset (vec2 × Dir)) = ↑(nsKeys l) := by
  rw [Multiset.cons_coe]
  exact Multiset.coe_eq_coe.mpr (keys_nsErase_cons_perm h)

theorem consume_two_mset {l : List Node} {cur ex : Node}
    (h1 : nkey cur ∈ nsKeys l) (h2 : nkey ex ∈ nsKeys (nsErase l cur))
    (V : List (vec2 × Dir)) :
    (↑(nsKeys (nsErase (nsErase l cur) ex)) + ↑(V ++ [nkey cur, nkey ex]) :
      Multiset (vec2 × Dir)) = ↑(nsKeys l) + ↑V := by
  have e1 := erase_cons_mset h1
  have e2 := erase_cons_mset h2
  rw [← e1, ← e2]
  rw [← Multiset.coe_add]
  rw [← Multiset.singleton_add, ← Multiset.singleton_add]
  have : (↑[nkey cur, nkey ex] : Multiset (vec2 × Dir)) = {nkey cur} + {nkey ex} := by
    rw [Multiset.singleton_add]
    rfl
  rw [this]
  abel

theorem mpost_of_post {st st' : TState} (h : Post st st') : MPost st st' := by
  obtain ⟨h1, h2, h3, h4, h5, h6⟩ := h
  exact ⟨1, le_refl 1, by omega, by omega, by omega, by omega, h5, by omega⟩

theorem post_mpost_trans {a b c : TState} (h1 : Post a b) (h2 : MPost b c) : MPost a c := by
  obtain ⟨p1, p2, p3, p4, p5, p6⟩ := h1
  obtain ⟨k, q0, q1, q2, q3, q4, q5, q6⟩ := h2
  exact ⟨k + 1, by omega, by omega, by omega, by omega, by omega, q5.trans p5, by omega⟩

theorem plData_set_dir (n : Node) (d : Dir) : plData {n with dir := d} = plData n := rfl

theorem markAbove_spec (pay : vec2 → StrokeType × vec2 × vec2 × vec2) (up : Bool)
    (cur : Node) (unused unusedUp : List Node)
    (hsu : nsSorted unusedUp)
    (hsub : ∀ n ∈ unusedUp, nkey n ∈ nsKeys unused)
    (hpayU : ∀ n ∈ unused, plData n = pay n.mid)
    (hpayUU : ∀ n ∈ unusedUp, plData n = pay n.mid)
    (hpair : ∀ n ∈ unused, (n.mid, typeDir n.type n.dir) ∈ nsKeys unused)
    (hp : plData cur = pay cur.mid) :
    ∃ uu1, markAbove up cur unused unusedUp = .ok uu1 ∧
      nsSorted uu1 ∧
      (∀ n ∈ uu1, nkey n ∈ nsKeys unused) ∧
      (∀ n ∈ uu1, plData n = pay n.mid) := by
  unfold markAbove
  by_cases hcond : up = false ∧ cur.type = StrokeType.Cross
  case neg =>
    rw [if_neg hcond]
    exact ⟨unusedUp, rfl, hsu, hsub, hpayUU⟩
  case pos =>
    rw [if_pos hcond]
    by_cases hab : nsCount unused {cur with dir := GlanceDir cur.dir} = true
    case neg =>
      rw [if_neg (by simpa using hab)]
      exact ⟨unusedUp, rfl, hsu, hsub, hpayUU⟩
    case pos =>
      have hkey : nkey {cur with dir := GlanceDir cur.dir} ∈ nsKeys unused :=
        nsCount_true_iff.mp hab
      obtain ⟨a0, ha0, hka0⟩ := mem_nsKeys.mp hkey
      have hmid : a0.mid = cur.mid := congrArg Prod.fst hka0
      have hdir : a0.dir = GlanceDir cur.dir := congrArg Prod.snd hka0
      have hpl : plData a0 = plData cur := by
        rw [hpayU a0 ha0, hmid, hp]
      have htype : a0.type = cur.type := congrArg (fun q => q.1) hpl
      have hpairA := hpair a0 ha0
      rw [hmid, htype, hcond.2, hdir] at hpairA
      have hab2 : nsCount unused
          {cur with dir := CrossDir (GlanceDir cur.dir)} = true := by
        rw [nsCount_true_iff]
        simpa [typeDir] using hpairA
      rw [if_pos hab, if_pos hab2]
      refine ⟨_, rfl, nsInsert_sorted (nsInsert_sorted hsu), ?_, ?_⟩
      · intro n hn
        rcases mem_nsInsert hn with rfl | hn2
        · exact nsCount_true_iff.mp hab2
        · rcases mem_nsInsert hn2 with rfl | hn3
          · exact hkey
          · exact hsub n hn3
      · intro n hn
        rcases mem_nsInsert hn with rfl | hn2
        · rw [plData_set_dir]
          exact hp
        · rcases mem_nsInsert hn2 with rfl | hn3
          · rw [plData_set_dir]
            exact hp
          · exact hpayUU n hn3

theorem chooseNext_eq_some {un2 : List Node} {next : vec2} {d0 : Dir} {j1 : vec2}
    {c : Node} (h : chooseNext un2 next d0 j1 = some c) :
    nkey c ∈ nsKeys un2 ∧ ∃ cc ∈ un2, cc.mid = c.mid ∧ plData cc = plData c := by
  unfold chooseNext at h
  split at h
  · split at h
    · exact Option.noConfusion h
    · rename_i c0 heq2
      obtain rfl : c0 = c := Option.some.inj h
      obtain ⟨hm, _, _⟩ := nsFindKey_eq_some heq2
      exact ⟨nkey_mem_nsKeys hm, c0, hm, rfl, rfl⟩
  · rename_i c0 heq1
    obtain ⟨hm0, hmid0, hdir0⟩ := nsFindKey_eq_some heq1
    split at h
    · split at h
      · exact Option.noConfusion h
      · rename_i hj hcnt
        obtain rfl : {c0 with dir := CrossDir c0.dir} = c := Option.some.inj h
        constructor
        · have hcnt2 : nsCount un2 {c0 with dir := CrossDir c0.dir} = true := by
            cases hb : nsCount un2 {c0 with dir := CrossDir c0.dir}
            · exact absurd hb hcnt
            · rfl
          exact nsCount_true_iff.mp hcnt2
        · exact ⟨c0, hm0, rfl, rfl⟩
    · obtain rfl : c0 = c := Option.some.inj h
      exact ⟨nkey_mem_nsKeys hm0, c0, hm0, rfl, rfl⟩

theorem innerStep_spec (J : JunctionMap) (cv : vec2 → Dir → vec2)
    (pay : vec2 → StrokeType × vec2 × vec2 × vec2) (cur : Node) (st : TState)
    (hI : InvP pay st.unused st.unusedUp) (hc : curOKP pay cur st.unused) :
    (∃ st', innerStep J cv cur st = .done st' ∧ Post st st' ∧
        InvP pay st'.unused st'.unusedUp) ∨
    (∃ cur' st', innerStep J cv cur st = .cont cur' st' ∧ Post st st' ∧
        InvP pay st'.unused st'.unusedUp ∧ curOKP pay cur' st'.unused) := by
  obtain ⟨hs, hsu, hsub, hpayU, hpayUU, hpair⟩ := hI
  obtain ⟨hk, hp⟩ := hc
  have hnd : (nsKeys st.unused).Nodup := nsSorted_nodup_keys hs
  obtain ⟨uu1, hma, hsu1, hsub1, hpay1⟩ :=
    markAbove_spec pay st.up cur st.unused st.unusedUp hsu hsub hpayU hpayUU hpair hp
  have hcount : nsCount st.unused cur = true := nsCount_true_iff.mpr hk
  obtain ⟨n0, hn0, hkn0⟩ := mem_nsKeys.mp hk
  have hn0mid : n0.mid = cur.mid := congrArg Prod.fst hkn0
  have hn0dir : n0.dir = cur.dir := congrArg Prod.snd hkn0
  have hn0pl : plData n0 = plData cur := by rw [hpayU n0 hn0, hn0mid, hp]
  have hn0type : n0.type = cur.type := congrArg (fun q => q.1) hn0pl
  have hexk : nkey ({cur with dir := typeDir cur.type cur.dir} : Node)
      ∈ nsKeys st.unused := by
    have hpr := hpair n0 hn0
    rw [hn0mid, hn0type, hn0dir] at hpr
    exact hpr
  have hkne_ex_cur : nkey ({cur with dir := typeDir cur.type cur.dir} : Node)
      ≠ nkey cur := by
    intro hh
    exact typeDir_ne cur.type cur.dir (congrArg Prod.snd hh)
  have hnd1 : (nsKeys (nsErase st.unused cur)).Nodup :=
    nsSorted_nodup_keys (nsErase_sorted hs)
  have hexk1 : nkey ({cur with dir := typeDir cur.type cur.dir} : Node)
      ∈ nsKeys (nsErase st.unused cur) :=
    (key_mem_nsErase_iff hnd).mpr ⟨hexk, hkne_ex_cur⟩
  have hcount2 : nsCount (nsErase st.unused cur)
      {cur with dir := typeDir cur.type cur.dir} = true := nsCount_true_iff.mpr hexk1
  have hlen1 : (nsErase st.unused cur).length + 1 = st.unused.length :=
    length_nsErase_of_mem hk
  have hlen2 : (nsErase (nsErase st.unused cur)
      {cur with dir := typeDir cur.type cur.dir}).length + 1
      = (nsErase st.unused cur).length := length_nsErase_of_mem hexk1
  have hnd_uu1 : (nsKeys uu1).Nodup := nsSorted_nodup_keys hsu1
  have hnd_uu2 : (nsKeys (nsErase uu1 cur)).Nodup :=
    nsSorted_nodup_keys (nsErase_sorted hsu1)
  have hpost : Post st ⟨nsErase (nsErase st.unused cur)
        {cur with dir := typeDir cur.type cur.dir},
      nsErase (nsErase uu1 cur) {cur with dir := typeDir cur.type cur.dir},
      nextUp st.up {cur with dir := typeDir cur.type cur.dir},
      st.thread ++ [samplePoint {cur with dir := typeDir cur.type cur.dir}],
      st.angles ++ [sampleTangent cv {cur with dir := typeDir cur.type cur.dir}],
      st.zs ++ [if st.up then (1 : ℚ) else 0],
      st.visited ++ [nkey cur, nkey ({cur with dir := typeDir cur.type cur.dir} : Node)]⟩ := by
    refine ⟨by simp, by simp, by simp, by simp, ?_, by dsimp only; omega⟩
    exact consume_two_mset hk hexk1 st.visited
  have hinv : InvP pay
      (nsErase (nsErase st.unused cur) {cur with dir := typeDir cur.type cur.dir})
      (nsErase (nsErase uu1 cur) {cur with dir := typeDir cur.type cur.dir}) := by
    refine ⟨nsErase_sorted (nsErase_sorted hs), nsErase_sorted (nsErase_sorted hsu1),
      ?_, ?_, ?_, ?_⟩
    · intro n hn
      obtain ⟨hn2, hne_ex⟩ := (mem_nsErase_iff hnd_uu2).mp hn
      obtain ⟨hn1, hne_cur⟩ := (mem_nsErase_iff hnd_uu1).mp hn2
      exact (key_mem_nsErase_iff hnd1).mpr
        ⟨(key_mem_nsErase_iff hnd).mpr ⟨hsub1 n hn1, hne_cur⟩, hne_ex⟩
    · intro n hn
      exact hpayU n (mem_of_mem_nsErase (mem_of_mem_nsErase hn))
    · intro n hn
      exact hpay1 n (mem_of_mem_nsErase (mem_of_mem_nsErase hn))
    · intro n hn
      obtain ⟨hn1, hne_ex⟩ := (mem_nsErase_iff hnd1).mp hn
      obtain ⟨hnu, hne_cur⟩ := (mem_nsErase_iff hnd).mp hn1
      have hpln : plData n = pay n.mid := hpayU n hnu
      have hK := hpair n hnu
      have hKnotcur : ((n.mid, typeDir n.type n.dir) : vec2 × Dir) ≠ nkey cur := by
        intro hKc
        have hmid : n.mid = cur.mid := congrArg Prod.fst hKc
        have hdir : typeDir n.type n.dir = cur.dir := congrArg Prod.snd hKc
        have hplc : plData n = plData cur := by rw [hpln, hmid, hp]
        have htn : n.type = cur.type := congrArg (fun q => q.1) hplc
        apply hne_ex
        have hdn : n.dir = typeDir cur.type cur.dir := by
          have := congrArg (typeDir n.type) hdir
          rw [typeDir_invol] at this
          rw [this, htn]
        exact Prod.ext_iff.mpr ⟨hmid, hdn⟩
      have hKnotex : ((n.mid, typeDir n.type n.dir) : vec2 × Dir)
          ≠ nkey ({cur with dir := typeDir cur.type cur.dir} : Node) := by
        intro hKc
        have hmid : n.mid = cur.mid := congrArg Prod.fst hKc
        have hdir : typeDir n.type n.dir = typeDir cur.type cur.dir :=
          congrArg Prod.snd hKc
        have hplc : plData n = plData cur := by rw [hpln, hmid, hp]
        have htn : n.type = cur.type := congrArg (fun q => q.1) hplc
        apply hne_cur
        have hdn : n.dir = cur.dir := by
          have := congrArg (typeDir n.type) hdir
          rw [typeDir_invol, htn, typeDir_invol] at this
          exact this
        exact Prod.ext_iff.mpr ⟨hmid, hdn⟩
      exact (key_mem_nsErase_iff hnd1).mpr
        ⟨(key_mem_nsErase_iff hnd).mpr ⟨hK, hKnotcur⟩, hKnotex⟩
  rcases hch : chooseNext
      (nsErase (nsErase st.unused cur) {cur with dir := typeDir cur.type cur.dir})
      (FindNext (jmLookup J (exitJunction {cur with dir := typeDir cur.type cur.dir}
        (entryJunction cur))) cur.mid (exitClockwise (typeDir cur.type cur.dir)))
      (if exitClockwise (typeDir cur.type cur.dir) then Dir.fRight else Dir.bRight)
      (exitJunction {cur with dir := typeDir cur.type cur.dir} (entryJunction cur))
    with _ | c
  · left
    refine ⟨_, ?_, hpost, hinv⟩
    simp only [innerStep, hma, hcount, hcount2, Bool.true_eq_false, if_false, hch]
  · right
    obtain ⟨hck, cc, hcc, hccmid, hccpl⟩ := chooseNext_eq_some hch
    refine ⟨c, _, ?_, hpost, hinv, hck, ?_⟩
    · simp only [innerStep, hma, hcount, hcount2, Bool.true_eq_false, if_false, hch]
    · rw [← hccpl, ← hccmid]
      exact hpayU cc (mem_of_mem_nsErase (mem_of_mem_nsErase hcc))

theorem innerLoopF_spec (J : JunctionMap) (cv : vec2 → Dir → vec2)
    (pay : vec2 → StrokeType × vec2 × vec2 × vec2) :
    ∀ (fuel : Nat) (cur : Node) (st : TState),
    InvP pay st.unused st.unusedUp → curOKP pay cur st.unused →
    st.unused.length < fuel →
    ∃ st', innerLoopF J cv fuel cur st = .ok st' ∧
      InvP pay st'.unused st'.unusedUp ∧ MPost st st' := by
  intro fuel
  induction fuel with
  | zero =>
    intro cur st _ _ hlt
    omega
  | succ fuel ih =>
    intro cur st hI hc hlt
    rcases innerStep_spec J cv pay cur st hI hc with
      ⟨st', heq, hpost, hI'⟩ | ⟨cur', st', heq, hpost, hI', hc'⟩
    · refine ⟨st', ?_, hI', mpost_of_post hpost⟩
      simp only [innerLoopF, heq]
    · have hlt' : st'.unused.length < fuel := by
        have := hpost.2.2.2.2.2
        omega
      obtain ⟨st'', heq2, hI'', hmp⟩ := ih cur' st' hI' hc' hlt'
      refine ⟨st'', ?_, hI'', post_mpost_trans hpost hmp⟩
      simp only [innerLoopF, heq, heq2]

theorem headD_append_of_ne_nil {α : Type} (l : List α) (x d : α) (h : l ≠ []) :
    (l ++ [x]).headD d = l.headD d := by
  cases l with
  | nil => exact absurd rfl h
  | cons a as => rfl

theorem getD_concat_self {α : Type} (l : List α) (x d : α) :
    (l ++ [x]).getD l.length d = x := by
  rw [List.getD_append_right l [x] d l.length (le_refl _)]
  simp

theorem getLastD_concat_self {α : Type} (l : List α) (x d : α) :
    (l ++ [x]).getLastD d = x := by
  cases l with
  | nil => rfl
  | cons a as =>
    rw [List.getLastD_eq_getLast?, List.getLast?_concat]
    rfl

theorem closing_eq_head {α : Type} (l : List α) (d : α) (h : l ≠ []) :
    (l ++ [l.headD d]).getLastD d = (l ++ [l.headD d]).headD d := by
  rw [getLastD_concat_self, headD_append_of_ne_nil l _ d h]

theorem tfacts_append (acc : ArtOut) (st' : TState) (k : Nat)
    (hTF : TFacts acc) (hk : 1 ≤ k)
    (hth : st'.thread.length = k) (han : st'.angles.length = k)
    (hzs : st'.zs.length = k) (hvis : st'.visited.length = 2 * k) :
    TFacts ⟨acc.threads ++ [⟨uniformXs st'.thread.length,
        st'.thread ++ [st'.thread.headD default],
        st'.angles ++ [st'.angles.headD default]⟩],
      acc.zsCurves ++ [⟨uniformXs st'.thread.length, st'.zs ++ [st'.zs.headD 0]⟩],
      acc.visits ++ [st'.visited]⟩ := by
  obtain ⟨hlen, hvlen, hfact⟩ := hTF
  have hthne : st'.thread ≠ [] := by
    intro hh
    rw [hh] at hth
    simp at hth
    omega
  have hanne : st'.angles ≠ [] := by
    intro hh
    rw [hh] at han
    simp at han
    omega
  have hzsne : st'.zs ≠ [] := by
    intro hh
    rw [hh] at hzs
    simp at hzs
    omega
  refine ⟨by simp [hlen], by simp [hvlen], ?_⟩
  intro i hi
  simp only [List.length_append, List.length_singleton] at hi
  by_cases hlt : i < acc.threads.length
  · have e1 : (acc.threads ++ [(⟨uniformXs st'.thread.length,
        st'.thread ++ [st'.thread.headD default],
        st'.angles ++ [st'.angles.headD default]⟩ : ThreadOut)]).getD i default
        = acc.threads.getD i default := List.getD_append _ _ _ _ hlt
    have e2 : (acc.zsCurves ++ [(⟨uniformXs st'.thread.length,
        st'.zs ++ [st'.zs.headD 0]⟩ : ZOut)]).getD i default
        = acc.zsCurves.getD i default := List.getD_append _ _ _ _ (by omega)
    have e3 : (acc.visits ++ [st'.visited]).getD i []
        = acc.visits.getD i [] := List.getD_append _ _ _ _ (by omega)
    simp only [e1, e2, e3]
    exact hfact i hlt
  · have hieq : i = acc.threads.length := by omega
    subst hieq
    have e1 : (acc.threads ++ [(⟨uniformXs st'.thread.length,
        st'.thread ++ [st'.thread.headD default],
        st'.angles ++ [st'.angles.headD default]⟩ : ThreadOut)]).getD
          acc.threads.length default
        = ⟨uniformXs st'.thread.length, st'.thread ++ [st'.thread.headD default],
           st'.angles ++ [st'.angles.headD default]⟩ := getD_concat_self _ _ _
    have e2 : (acc.zsCurves ++ [(⟨uniformXs st'.thread.length,
        st'.zs ++ [st'.zs.headD 0]⟩ : ZOut)]).getD acc.threads.length default
        = ⟨uniformXs st'.thread.length, st'.zs ++ [st'.zs.headD 0]⟩ := by
      rw [hlen]
      exact getD_concat_self _ _ _
    have e3 : (acc.visits ++ [st'.visited]).getD acc.threads.length []
        = st'.visited := by
      rw [← hvlen]
      exact getD_concat_self _ _ _
    simp only [e1, e2, e3]
    refine ⟨k, hk, by simp [hth], by simp [han], by simp [hzs], hvis,
      by rw [hth], by rw [hth], ?_, ?_, ?_⟩
    · exact closing_eq_head st'.thread default hthne
    · exact closing_eq_head st'.angles default hanne
    · exact closing_eq_head st'.zs 0 hzsne

theorem isEmpty_true_iff {α : Type} {l : List α} : l.isEmpty = true ↔ l = [] := by
  cases l <;> simp

theorem headD_mem {α : Type} {l : List α} (d : α) (h : l ≠ []) : l.headD d ∈ l := by
  cases l with
  | nil => exact absurd rfl h
  | cons a as => exact List.mem_cons_self a as

theorem outerLoopF_spec (J : JunctionMap) (cv : vec2 → Dir → vec2)
    (pay : vec2 → StrokeType × vec2 × vec2 × vec2) :
    ∀ (fuel : Nat) (unused unusedUp : List Node) (acc : ArtOut),
    InvP pay unused unusedUp → unused.length < fuel → TFacts acc →
    ∃ art, outerLoopF J cv fuel unused unusedUp acc = .ok art ∧ TFacts art ∧
      (↑art.visits.join : Multiset (vec2 × Dir)) = ↑acc.visits.join + ↑(nsKeys unused) := by
  intro fuel
  induction fuel with
  | zero =>
    intro u uu acc _ hlt _
    omega
  | succ fuel ih =>
    intro u uu acc hI hlt hTF
    by_cases hemp : (u.isEmpty && uu.isEmpty) = true
    · obtain ⟨he1, he2⟩ : u.isEmpty = true ∧ uu.isEmpty = true := by simpa using hemp
      have hu : u = [] := isEmpty_true_iff.mp he1
      refine ⟨acc, ?_, hTF, ?_⟩
      · simp only [outerLoopF, if_pos hemp]
      · rw [hu]
        simp [nsKeys]
    · have hune : u ≠ [] := by
        intro hu
        apply hemp
        have huu : uu = [] := by
          cases huu : uu with
          | nil => rfl
          | cons h t =>
            exfalso
            have hm := hI.2.2.1 h (by rw [huu]; exact List.mem_cons_self h t)
            rw [hu] at hm
            simp [nsKeys] at hm
        rw [hu, huu]
        rfl
      have hcur : curOKP pay (pickStart u uu).1 u := by
        cases huu : uu with
        | nil =>
          have hm : u.headD default ∈ u := headD_mem default hune
          have he : (pickStart u [] ).1 = u.headD default := rfl
          rw [he]
          exact ⟨nkey_mem_nsKeys hm, hI.2.2.2.1 _ hm⟩
        | cons h t =>
          have hmem : h ∈ uu := by rw [huu]; exact List.mem_cons_self _ _
          rw [huu] at hI
          have he : (pickStart u (h :: t)).1 = h := rfl
          rw [he]
          rw [huu] at hmem
          exact ⟨hI.2.2.1 h hmem, hI.2.2.2.2.1 h hmem⟩
      obtain ⟨st', hok, hI', hmp⟩ := innerLoopF_spec J cv pay (u.length + 1)
        (pickStart u uu).1 ⟨u, uu, (pickStart u uu).2, [], [], [], []⟩ hI hcur
        (by dsimp only; omega)
      obtain ⟨k, hk1, hthv, hanv, hzsv, hvisv, hmset, hulen⟩ := hmp
      dsimp only at hthv hanv hzsv hvisv hmset hulen
      have hthv' : st'.thread.length = k := by simpa using hthv
      have hanv' : st'.angles.length = k := by simpa using hanv
      have hzsv' : st'.zs.length = k := by simpa using hzsv
      have hvisv' : st'.visited.length = 2 * k := by simpa using hvisv
      have hulen' : st'.unused.length + 2 * k = u.length := by simpa using hulen
      have hmset' : (↑(nsKeys st'.unused) + ↑st'.visited : Multiset (vec2 × Dir))
          = ↑(nsKeys u) := by
        rw [hmset]
        simp
      have hTF' := tfacts_append acc st' k hTF hk1 hthv' hanv' hzsv' hvisv'
      obtain ⟨art, hrec, hTFart, hjoin⟩ := ih st'.unused st'.unusedUp
        ⟨acc.threads ++ [⟨uniformXs st'.thread.length,
            st'.thread ++ [st'.thread.headD default],
            st'.angles ++ [st'.angles.headD default]⟩],
          acc.zsCurves ++ [⟨uniformXs st'.thread.length, st'.zs ++ [st'.zs.headD 0]⟩],
          acc.visits ++ [st'.visited]⟩ hI' (by omega) hTF'
      refine ⟨art, ?_, hTFart, ?_⟩
      · simp only [outerLoopF, if_neg hemp, hok, hrec]
      · have hjn : ((acc.visits ++ [st'.visited]).join : List (vec2 × Dir))
            = acc.visits.join ++ st'.visited := by simp
        rw [hjoin]
        dsimp only
        rw [hjn, ← Multiset.coe_add, ← hmset']
        have : (↑acc.visits.join + ↑st'.visited : Multiset (vec2 × Dir))
            + ↑(nsKeys st'.unused)
            = ↑acc.visits.join + (↑(nsKeys st'.unused) + ↑st'.visited) := by abel
        rw [this]

theorem key_mem_nsInsert_iff {l : List Node} {n : Node} {k : vec2 × Dir}
    (h : nkey n ∉ nsKeys l) :
    k ∈ nsKeys (nsInsert l n) ↔ k = nkey n ∨ k ∈ nsKeys l := by
  simp only [mem_nsKeys]
  constructor
  · rintro ⟨m, hm, rfl⟩
    rcases (mem_nsInsert_iff_of_not_key h).mp hm with rfl | hm2
    · exact Or.inl rfl
    · exact Or.inr ⟨m, hm2, rfl⟩
  · rintro (rfl | ⟨m, hm, rfl⟩)
    · exact ⟨n, (mem_nsInsert_iff_of_not_key h).mpr (Or.inl rfl), rfl⟩
    · exact ⟨m, (mem_nsInsert_iff_of_not_key h).mpr (Or.inr hm), rfl⟩

theorem mkGraphStep_inv (al : vec2 → vec2 → vec2 → Bool) (g : Graph) (s : Stroke)
    (pay : vec2 → StrokeType × vec2 × vec2 × vec2)
    (h1 : nsSorted g.unused) (h2 : ∀ n ∈ g.unused, plData n = pay n.mid)
    (h3 : Quad (nsKeys g.unused)) :
    ∃ pay1 : vec2 → StrokeType × vec2 × vec2 × vec2,
      nsSorted (mkGraphStep al g s).unused ∧
      (∀ n ∈ (mkGraphStep al g s).unused, plData n = pay1 n.mid) ∧
      Quad (nsKeys (mkGraphStep al g s).unused) ∧
      (∀ k ∈ nsKeys (mkGraphStep al g s).unused,
        k ∈ nsKeys g.unused ∨ k.1 = s.GetMid) ∧
      (∀ d : Dir, (s.GetMid, d) ∈ nsKeys (mkGraphStep al g s).unused) ∧
      (∀ k ∈ nsKeys g.unused, k ∈ nsKeys (mkGraphStep al g s).unused) := by
  have hun : (mkGraphStep al g s).unused
      = nsInsert (nsInsert (nsInsert (nsInsert g.unused
          ⟨s.GetMid, .fLeft, s.type, ⟨-(s.b.sub s.a).y, (s.b.sub s.a).x⟩, s.a, s.b⟩)
          ⟨s.GetMid, .fRight, s.type, ⟨-(s.b.sub s.a).y, (s.b.sub s.a).x⟩, s.a, s.b⟩)
          ⟨s.GetMid, .bLeft, s.type, ⟨-(s.b.sub s.a).y, (s.b.sub s.a).x⟩, s.a, s.b⟩)
          ⟨s.GetMid, .bRight, s.type, ⟨-(s.b.sub s.a).y, (s.b.sub s.a).x⟩, s.a, s.b⟩ := rfl
  by_cases hocc : ((s.GetMid, Dir.fLeft) : vec2 × Dir) ∈ nsKeys g.unused
  · -- the midpoint already carries its four ports: all four inserts are silent no-ops
    have hall : ∀ d : Dir, ((s.GetMid, d) : vec2 × Dir) ∈ nsKeys g.unused :=
      fun d => h3 (s.GetMid, Dir.fLeft) hocc d
    have he1 : nsInsert g.unused
        ⟨s.GetMid, .fLeft, s.type, ⟨-(s.b.sub s.a).y, (s.b.sub s.a).x⟩, s.a, s.b⟩
        = g.unused := nsInsert_eq_of_key_mem h1 (hall .fLeft)
    have he2 : nsInsert g.unused
        ⟨s.GetMid, .fRight, s.type, ⟨-(s.b.sub s.a).y, (s.b.sub s.a).x⟩, s.a, s.b⟩
        = g.unused := nsInsert_eq_of_key_mem h1 (hall .fRight)
    have he3 : nsInsert g.unused
        ⟨s.GetMid, .bLeft, s.type, ⟨-(s.b.sub s.a).y, (s.b.sub s.a).x⟩, s.a, s.b⟩
        = g.unused := nsInsert_eq_of_key_mem h1 (hall .bLeft)
    have he4 : nsInsert g.unused
        ⟨s.GetMid, .bRight, s.type, ⟨-(s.b.sub s.a).y, (s.b.sub s.a).x⟩, s.a, s.b⟩
        = g.unused := nsInsert_eq_of_key_mem h1 (hall .bRight)
    have hu : (mkGraphStep al g s).unused = g.unused := by
      rw [hun, he1, he2, he3, he4]
    rw [hu]
    exact ⟨pay, h1, h2, h3, fun k hk => Or.inl hk, hall, fun k hk => hk⟩
  · -- fresh midpoint: all four ports are inserted
    have habs : ∀ d : Dir, ((s.GetMid, d) : vec2 × Dir) ∉ nsKeys g.unused := by
      intro d hd
      exact hocc (h3 (s.GetMid, d) hd .fLeft)
    refine ⟨fun m => if m = s.GetMid
        then (s.type, ⟨-(s.b.sub s.a).y, (s.b.sub s.a).x⟩, s.a, s.b) else pay m,
      ?_, ?_, ?_, ?_, ?_, ?_⟩
    all_goals rw [hun]
    case _ =>
      exact nsInsert_sorted (nsInsert_sorted (nsInsert_sorted (nsInsert_sorted h1)))
    all_goals
      have hk1 : ∀ k, k ∈ nsKeys (nsInsert g.unused
          ⟨s.GetMid, .fLeft, s.type, ⟨-(s.b.sub s.a).y, (s.b.sub s.a).x⟩, s.a, s.b⟩)
          ↔ k = (s.GetMid, Dir.fLeft) ∨ k ∈ nsKeys g.unused :=
        fun k => key_mem_nsInsert_iff (habs .fLeft)
      have hnk2 : nkey (⟨s.GetMid, .fRight, s.type,
          ⟨-(s.b.sub s.a).y, (s.b.sub s.a).x⟩, s.a, s.b⟩ : Node)
          ∉ nsKeys (nsInsert g.unused
          ⟨s.GetMid, .fLeft, s.type, ⟨-(s.b.sub s.a).y, (s.b.sub s.a).x⟩, s.a, s.b⟩) := by
        rw [hk1]
        rintro (hh | hh)
        · exact Dir.noConfusion (congrArg Prod.snd hh)
        · exact habs .fRight hh
      have hk2 : ∀ k, k ∈ nsKeys (nsInsert (nsInsert g.unused
          ⟨s.GetMid, .fLeft, s.type, ⟨-(s.b.sub s.a).y, (s.b.sub s.a).x⟩, s.a, s.b⟩)
          ⟨s.GetMid, .fRight, s.type, ⟨-(s.b.sub s.a).y, (s.b.sub s.a).x⟩, s.a, s.b⟩)
          ↔ k = (s.GetMid, Dir.fRight) ∨ k = (s.GetMid, Dir.fLeft)
            ∨ k ∈ nsKeys g.unused := by
        intro k
        rw [key_mem_nsInsert_iff hnk2, hk1]
        exact Iff.rfl
      have hnk3 : nkey (⟨s.GetMid, .bLeft, s.type,
          ⟨-(s.b.sub s.a).y, (s.b.sub s.a).x⟩, s.a, s.b⟩ : Node)
          ∉ nsKeys (nsInsert (nsInsert g.unused
          ⟨s.GetMid, .fLeft, s.type, ⟨-(s.b.sub s.a).y, (s.b.sub s.a).x⟩, s.a, s.b⟩)
          ⟨s.GetMid, .fRight, s.type, ⟨-(s.b.sub s.a).y, (s.b.sub s.a).x⟩, s.a, s.b⟩) := by
        rw [hk2]
        rintro (hh | hh | hh)
        · exact Dir.noConfusion (congrArg Prod.snd hh)
        · exact Dir.noConfusion (congrArg Prod.snd hh)
        · exact habs .bLeft hh
      have hk3 : ∀ k, k ∈ nsKeys (nsInsert (nsInsert (nsInsert g.unused
          ⟨s.GetMid, .fLeft, s.type, ⟨-(s.b.sub s.a).y, (s.b.sub s.a).x⟩, s.a, s.b⟩)
          ⟨s.GetMid, .fRight, s.type, ⟨-(s.b.sub s.a).y, (s.b.sub s.a).x⟩, s.a, s.b⟩)
          ⟨s.GetMid, .bLeft, s.type, ⟨-(s.b.sub s.a).y, (s.b.sub s.a).x⟩, s.a, s.b⟩)
          ↔ k = (s.GetMid, Dir.bLeft) ∨ k = (s.GetMid, Dir.fRight)
            ∨ k = (s.GetMid, Dir.fLeft) ∨ k ∈ nsKeys g.unused := by
        intro k
        rw [key_mem_nsInsert_iff hnk3, hk2]
        exact Iff.rfl
      have hnk4 : nkey (⟨s.GetMid, .bRight, s.type,
          ⟨-(s.b.sub s.a).y, (s.b.sub s.a).x⟩, s.a, s.b⟩ : Node)
          ∉ nsKeys (nsInsert (nsInsert (nsInsert g.unused
          ⟨s.GetMid, .fLeft, s.type, ⟨-(s.b.sub s.a).y, (s.b.sub s.a).x⟩, s.a, s.b⟩)
          ⟨s.GetMid, .fRight, s.type, ⟨-(s.b.sub s.a).y, (s.b.sub s.a).x⟩, s.a, s.b⟩)
          ⟨s.GetMid, .bLeft, s.type, ⟨-(s.b.sub s.a).y, (s.b.sub s.a).x⟩, s.a, s.b⟩) := by
        rw [hk3]
        rintro (hh | hh | hh | hh)
        · exact Dir.noConfusion (congrArg Prod.snd hh)
        · exact Dir.noConfusion (congrArg Prod.snd hh)
        · exact Dir.noConfusion (congrArg Prod.snd hh)
        · exact habs .bRight hh
      have hk4 : ∀ k, k ∈ nsKeys (nsInsert (nsInsert (nsInsert (nsInsert g.unused
          ⟨s.GetMid, .fLeft, s.type, ⟨-(s.b.sub s.a).y, (s.b.sub s.a).x⟩, s.a, s.b⟩)
          ⟨s.GetMid, .fRight, s.type, ⟨-(s.b.sub s.a).y, (s.b.sub s.a).x⟩, s.a, s.b⟩)
          ⟨s.GetMid, .bLeft, s.type, ⟨-(s.b.sub s.a).y, (s.b.sub s.a).x⟩, s.a, s.b⟩)
          ⟨s.GetMid, .bRight, s.type, ⟨-(s.b.sub s.a).y, (s.b.sub s.a).x⟩, s.a, s.b⟩)
          ↔ k = (s.GetMid, Dir.bRight) ∨ k = (s.GetMid, Dir.bLeft)
            ∨ k = (s.GetMid, Dir.fRight) ∨ k = (s.GetMid, Dir.fLeft)
            ∨ k ∈ nsKeys g.unused := by
        intro k
        rw [key_mem_nsInsert_iff hnk4, hk3]
        exact Iff.rfl
      have hmem4 : ∀ m, m ∈ nsInsert (nsInsert (nsInsert (nsInsert g.unused
          ⟨s.GetMid, .fLeft, s.type, ⟨-(s.b.sub s.a).y, (s.b.sub s.a).x⟩, s.a, s.b⟩)
          ⟨s.GetMid, .fRight, s.type, ⟨-(s.b.sub s.a).y, (s.b.sub s.a).x⟩, s.a, s.b⟩)
          ⟨s.GetMid, .bLeft, s.type, ⟨-(s.b.sub s.a).y, (s.b.sub s.a).x⟩, s.a, s.b⟩)
          ⟨s.GetMid, .bRight, s.type, ⟨-(s.b.sub s.a).y, (s.b.sub s.a).x⟩, s.a, s.b⟩ →
          m ∈ g.unused ∨ m.mid = s.GetMid ∧ plData m
            = (s.type, ⟨-(s.b.sub s.a).y, (s.b.sub s.a).x⟩, s.a, s.b) := by
        intro m hm
        rcases mem_nsInsert hm with rfl | hm
        · exact Or.inr ⟨rfl, rfl⟩
        rcases mem_nsInsert hm with rfl | hm
        · exact Or.inr ⟨rfl, rfl⟩
        rcases mem_nsInsert hm with rfl | hm
        · exact Or.inr ⟨rfl, rfl⟩
        rcases mem_nsInsert hm with rfl | hm
        · exact Or.inr ⟨rfl, rfl⟩
        exact Or.inl hm
      have holdmid : ∀ n ∈ g.unused, n.mid ≠ s.GetMid := by
        intro n hn hmid
        apply habs n.dir
        rw [← hmid]
        exact nkey_mem_nsKeys hn
      first
      | -- payload goal
        (intro n hn
         dsimp only
         rcases hmem4 n hn with hn2 | ⟨hmid, hpl⟩
         · rw [if_neg (holdmid n hn2)]
           exact h2 n hn2
         · rw [hmid, if_pos rfl]
           exact hpl)
      | -- Quad goal
        (intro k hk d
         rw [hk4] at hk
         rw [hk4]
         rcases hk with rfl | rfl | rfl | rfl | hk
         · cases d
           · exact Or.inr (Or.inr (Or.inr (Or.inl rfl)))
           · exact Or.inr (Or.inr (Or.inl rfl))
           · exact Or.inr (Or.inl rfl)
           · exact Or.inl rfl
         · cases d
           · exact Or.inr (Or.inr (Or.inr (Or.inl rfl)))
           · exact Or.inr (Or.inr (Or.inl rfl))
           · exact Or.inr (Or.inl rfl)
           · exact Or.inl rfl
         · cases d
           · exact Or.inr (Or.inr (Or.inr (Or.inl rfl)))
           · exact Or.inr (Or.inr (Or.inl rfl))
           · exact Or.inr (Or.inl rfl)
           · exact Or.inl rfl
         · cases d
           · exact Or.inr (Or.inr (Or.inr (Or.inl rfl)))
           · exact Or.inr (Or.inr (Or.inl rfl))
           · exact Or.inr (Or.inl rfl)
           · exact Or.inl rfl
         · exact Or.inr (Or.inr (Or.inr (Or.inr (h3 k hk d)))))
      | -- extension goal
        (intro k hk
         rw [hk4] at hk
         rcases hk with rfl | rfl | rfl | rfl | hk
         · exact Or.inr rfl
         · exact Or.inr rfl
         · exact Or.inr rfl
         · exact Or.inr rfl
         · exact Or.inl hk)
      | -- four ports present goal
        (intro d
         rw [hk4]
         cases d
         · exact Or.inr (Or.inr (Or.inr (Or.inl rfl)))
         · exact Or.inr (Or.inr (Or.inl rfl))
         · exact Or.inr (Or.inl rfl)
         · exact Or.inl rfl)
      | -- old keys preserved goal
        (intro k hk
         rw [hk4]
         exact Or.inr (Or.inr (Or.inr (Or.inr hk))))

theorem mkGraph_fold_inv (al : vec2 → vec2 → vec2 → Bool) :
    ∀ (strokes : List Stroke) (g : Graph) (pay : vec2 → StrokeType × vec2 × vec2 × vec2),
    nsSorted g.unused → (∀ n ∈ g.unused, plData n = pay n.mid) →
    Quad (nsKeys g.unused) →
    ∃ pay2 : vec2 → StrokeType × vec2 × vec2 × vec2,
      nsSorted (strokes.foldl (mkGraphStep al) g).unused ∧
      (∀ n ∈ (strokes.foldl (mkGraphStep al) g).unused, plData n = pay2 n.mid) ∧
      Quad (nsKeys (strokes.foldl (mkGraphStep al) g).unused) ∧
      (∀ k ∈ nsKeys (strokes.foldl (mkGraphStep al) g).unused,
        k ∈ nsKeys g.unused ∨ k.1 ∈ strokes.map Stroke.GetMid) ∧
      (∀ m ∈ strokes.map Stroke.GetMid, ∀ d : Dir,
        (m, d) ∈ nsKeys (strokes.foldl (mkGraphStep al) g).unused) ∧
      (∀ k ∈ nsKeys g.unused, k ∈ nsKeys (strokes.foldl (mkGraphStep al) g).unused) := by
  intro strokes
  induction strokes with
  | nil =>
    intro g pay h1 h2 h3
    exact ⟨pay, h1, h2, h3, fun k hk => Or.inl hk, by simp, fun k hk => hk⟩
  | cons s rest ih =>
    intro g pay h1 h2 h3
    obtain ⟨pay1, s1, s2, s3, s4, s5, s6⟩ := mkGraphStep_inv al g s pay h1 h2 h3
    obtain ⟨pay2, t1, t2, t3, t4, t5, t6⟩ := ih (mkGraphStep al g s) pay1 s1 s2 s3
    rw [List.foldl_cons]
    refine ⟨pay2, t1, t2, t3, ?_, ?_, ?_⟩
    · intro k hk
      rcases t4 k hk with hk2 | hk2
      · rcases s4 k hk2 with hk3 | hk3
        · exact Or.inl hk3
        · refine Or.inr ?_
          rw [List.map_cons, hk3]
          exact List.mem_cons_self _ _
      · exact Or.inr (by rw [List.map_cons]; exact List.mem_cons_of_mem _ hk2)
    · intro m hm d
      rw [List.map_cons] at hm
      rcases List.mem_cons.mp hm with rfl | hm2
      · exact t6 _ (s5 d)
      · exact t5 m hm2 d
    · intro k hk
      exact t6 k (s6 k hk)

theorem mkGraph_inv (al : vec2 → vec2 → vec2 → Bool) (strokes : List Stroke) :
    ∃ pay2 : vec2 → StrokeType × vec2 × vec2 × vec2,
      nsSorted (mkGraph al strokes).unused ∧
      (∀ n ∈ (mkGraph al strokes).unused, plData n = pay2 n.mid) ∧
      Quad (nsKeys (mkGraph al strokes).unused) ∧
      (∀ k ∈ nsKeys (mkGraph al strokes).unused, k.1 ∈ strokes.map Stroke.GetMid) ∧
      (∀ m ∈ strokes.map Stroke.GetMid, ∀ d : Dir,
        (m, d) ∈ nsKeys (mkGraph al strokes).unused) := by
  obtain ⟨pay2, t1, t2, t3, t4, t5, _⟩ := mkGraph_fold_inv al strokes ⟨[], []⟩
    (fun _ => (StrokeType.Cross, default, default, default))
    (List.Pairwise.nil) (by simp) (by simp [nsKeys, Quad])
  refine ⟨pay2, t1, t2, t3, ?_, t5⟩
  intro k hk
  rcases t4 k hk with hk2 | hk2
  · simp [nsKeys] at hk2
  · exact hk2

theorem mkGraph_initial_InvP (al : vec2 → vec2 → vec2 → Bool) (strokes : List Stroke) :
    ∃ pay : vec2 → StrokeType × vec2 × vec2 × vec2,
      InvP pay (mkGraph al strokes).unused [] := by
  obtain ⟨pay2, t1, t2, t3, _, _⟩ := mkGraph_inv al strokes
  refine ⟨pay2, t1, List.Pairwise.nil, by simp, t2, by simp, ?_⟩
  intro n hn
  exact t3 (nkey n) (nkey_mem_nsKeys hn) (typeDir n.type n.dir)

theorem CreateThread_spec (al : vec2 → vec2 → vec2 → Bool) (cv : vec2 → Dir → vec2)
    (strokes : List Stroke) :
    ∃ art, CreateThread al cv strokes = .ok art ∧ TFacts art ∧
      (↑art.visits.join : Multiset (vec2 × Dir))
        = ↑(nsKeys (mkGraph al strokes).unused) := by
  obtain ⟨pay, hI⟩ := mkGraph_initial_InvP al strokes
  obtain ⟨art, hok, hTF, hjoin⟩ := outerLoopF_spec (mkGraph al strokes).junctions cv pay
    ((mkGraph al strokes).unused.length + 1) (mkGraph al strokes).unused [] ⟨[], [], []⟩
    hI (by omega) ⟨rfl, rfl, by intro i hi; simp at hi⟩
  refine ⟨art, hok, hTF, ?_⟩
  rw [hjoin]
  simp

theorem mkGraph_unused_length (al : vec2 → vec2 → vec2 → Bool) (strokes : List Stroke) :
    (mkGraph al strokes).unused.length
      = 4 * ((strokes.map Stroke.GetMid).dedup).length := by
  obtain ⟨pay2, t1, _, _, t4, t5⟩ := mkGraph_inv al strokes
  have hnd := nsSorted_nodup_keys t1
  have hiff : ∀ k : vec2 × Dir, k ∈ nsKeys (mkGraph al strokes).unused
      ↔ k.1 ∈ (strokes.map Stroke.GetMid).dedup
        ∧ k.2 ∈ [Dir.fLeft, Dir.fRight, Dir.bLeft, Dir.bRight] := by
    intro k
    constructor
    · intro hk
      refine ⟨List.mem_dedup.mpr (t4 k hk), ?_⟩
      cases hk2 : k.2 <;> simp
    · rintro ⟨h1, _⟩
      exact t5 k.1 (List.mem_dedup.mp h1) k.2
  have hperm : (nsKeys (mkGraph al strokes).unused).Perm
      ((strokes.map Stroke.GetMid).dedup
        ×ˢ [Dir.fLeft, Dir.fRight, Dir.bLeft, Dir.bRight]) := by
    rw [List.perm_ext_iff_of_nodup hnd
      (List.Nodup.product (List.nodup_dedup _) (by decide))]
    intro a
    rw [hiff a, List.mem_product]
  have hlen := hperm.length_eq
  rw [nsKeys, List.length_map] at hlen
  rw [hlen, List.length_product]
  simp [Nat.mul_comm]

theorem getD_zero_headD {α : Type} (l : List α) (d : α) : l.getD 0 d = l.headD d := by
  cases l <;> rfl

theorem uniformXs_headD (k : Nat) (hk : 1 ≤ k) : (uniformXs k).headD 0 = 0 := by
  obtain ⟨m, rfl⟩ : ∃ m, k = m + 1 := ⟨k - 1, by omega⟩
  rw [uniformXs, List.range_succ_eq_map]
  simp

theorem uniformXs_getLastD (k : Nat) : (uniformXs k).getLastD 0 = 1 := by
  rw [uniformXs]
  exact getLastD_concat_self _ _ _

theorem uniformXs_length (k : Nat) : (uniformXs k).length = k + 1 := by
  rw [uniformXs, List.length_append, List.length_map, List.length_range,
    List.length_singleton]

theorem uniformXs_getD_one_pos (k : Nat) (hk : 1 ≤ k) : 0 < (uniformXs k).getD 1 0 := by
  rcases Nat.lt_or_ge k 2 with hk2 | hk2
  · have hone : k = 1 := by omega
    subst hone
    decide
  · obtain ⟨m, rfl⟩ : ∃ m, k = m + 2 := ⟨k - 2, by omega⟩
    rw [uniformXs]
    rw [List.getD_append _ _ _ _
      (by rw [List.length_map, List.length_range]; omega)]
    have h1 : (List.map (fun i : Nat => (i : ℚ) / (((m + 2 : Nat)) : ℚ))
        (List.range (m + 2))).getD 1 0
        = (1 : ℚ) / ((m + 2 : Nat) : ℚ) := by
      rw [List.getD_eq_getElem _ _
        (by rw [List.length_map, List.length_range]; omega)]
      rw [List.getElem_map]
      norm_num
    rw [h1]
    positivity

theorem qmod_zero_zero_one : qmod 0 0 1 = 0 := by
  norm_num [qmod]

theorem qmod_one_zero_one : qmod 1 0 1 = 0 := by
  norm_num [qmod]

theorem getIndexLoop_uniform_zero (k : Nat) (hk : 1 ≤ k) (x : ℚ)
    (hx : qmod x ((uniformXs k).headD 0) ((uniformXs k).getLastD 0) = 0) :
    getIndexLoop (uniformXs k) x = 0 := by
  unfold getIndexLoop
  rw [hx, uniformXs_length, Nat.add_sub_cancel]
  dsimp only
  obtain ⟨m, rfl⟩ : ∃ m, k = m + 1 := ⟨k - 1, by omega⟩
  rw [List.range_succ_eq_map]
  have hfind : List.find? (fun i => decide ((uniformXs (m + 1)).getD i 0 ≤ (0 : ℚ)
      ∧ (0 : ℚ) < (uniformXs (m + 1)).getD (i + 1) 0))
      (0 :: List.map Nat.succ (List.range m)) = some 0 := by
    apply List.find?_cons_of_pos
    show decide ((uniformXs (m + 1)).getD 0 0 ≤ (0 : ℚ)
      ∧ (0 : ℚ) < (uniformXs (m + 1)).getD (0 + 1) 0) = true
    rw [decide_eq_true_eq]
    constructor
    · rw [getD_zero_headD, uniformXs_headD _ hk]
    · exact uniformXs_getD_one_pos _ hk
  rw [hfind]

theorem stepY_uniform_closed (k : Nat) (hk : 1 ≤ k) (zv : List ℚ) :
    stepY ⟨uniformXs k, zv⟩ 0 = stepY ⟨uniformXs k, zv⟩ 1 := by
  have hhead : (uniformXs k).headD 0 = 0 := uniformXs_headD k hk
  have hlast : (uniformXs k).getLastD 0 = 1 := uniformXs_getLastD k
  have hq0 : qmod 0 ((uniformXs k).headD 0) ((uniformXs k).getLastD 0) = 0 := by
    rw [hhead, hlast]
    exact qmod_zero_zero_one
  have hq1 : qmod 1 ((uniformXs k).headD 0) ((uniformXs k).getLastD 0) = 0 := by
    rw [hhead, hlast]
    exact qmod_one_zero_one
  have hval : ∀ x : ℚ,
      qmod x ((uniformXs k).headD 0) ((uniformXs k).getLastD 0) = 0 →
      stepY ⟨uniformXs k, zv⟩ x = zv.getD 0 0 := by
    intro x hx
    unfold stepY
    dsimp only
    rw [getIndexLoop_uniform_zero k hk x hx]
    unfold getSubRange
    dsimp only
    rw [hx]
    rw [getD_zero_headD, hhead]
    rw [if_pos (by norm_num)]
  rw [hval 0 hq0, hval 1 hq1]

theorem getLastD_eq_getD {α : Type} (l : List α) (d : α) :
    l.getLastD d = l.getD (l.length - 1) d := by
  rw [List.getLastD_eq_getLast?, List.getLast?_eq_getElem?, List.getD_eq_getElem?_getD]

theorem findNext_clockwise {mids : List vec2} {v : vec2} {i : Nat}
    (h : mids.findIdx? (fun m => decide (m = v)) = some i) :
    FindNext mids v true = mids.getD ((i + 1) % mids.length) v := by
  obtain ⟨hlt, -, -⟩ := List.findIdx?_eq_some_iff_getElem.mp h
  simp only [FindNext, h, if_true]
  by_cases hc : i + 1 < mids.length
  · rw [if_pos hc, Nat.mod_eq_of_lt hc]
  · have hlen : i + 1 = mids.length := by omega
    rw [if_neg hc, hlen, Nat.mod_self, getD_zero_headD]

theorem findNext_counterclockwise {mids : List vec2} {v : vec2} {i : Nat}
    (h : mids.findIdx? (fun m => decide (m = v)) = some i) :
    FindNext mids v false = mids.getD ((i + mids.length - 1) % mids.length) v := by
  obtain ⟨hlt, -, -⟩ := List.findIdx?_eq_some_iff_getElem.mp h
  have hne : mids ≠ [] := by
    intro hh
    rw [hh] at hlt
    simp at hlt
  simp only [FindNext, h, Bool.false_eq_true, if_false]
  by_cases hc : i = 0
  · subst hc
    rw [if_pos rfl, getLastD_eq_getD mids v]
    have : (0 + mids.length - 1) % mids.length = mids.length - 1 := by
      rw [Nat.zero_add]
      exact Nat.mod_eq_of_lt (by omega)
    rw [this]
  · rw [if_neg hc]
    have : (i + mids.length - 1) % mids.length = i - 1 := by
      have h1 : i + mids.length - 1 = mids.length + (i - 1) := by omega
      rw [h1, Nat.add_mod_left, Nat.mod_eq_of_lt (by omega)]
    rw [this]

/-- C1 (counterexample): the claim that the total number of sample-consuming port
removals equals 4 times the number of strokes fails on the crossing-diagonals mesh:
two distinct nonzero-length strokes share the midpoint (1,1), the set insert silently
drops the second stroke's four ports, and the full traversal performs 4 removals
although 4 times the stroke count is 8. -/
theorem c1_port_conservation_counterexample :
    (∀ s ∈ diagStrokes, s.a ≠ s.b) ∧
    (match CreateThread angleLt0 crossVec0 diagStrokes with
      | .ok art => totalVisits art
      | .error _ => 0) = 4 ∧
    4 ≠ 4 * diagStrokes.length := by
  refine ⟨?_, ?_, ?_⟩
  · with_unfolding_all decide
  · with_unfolding_all decide
  · with_unfolding_all decide

/-- C1 (amended): for every stroke list whose midpoints are pairwise distinct, the
traversal completes without any assert, the multiset of consumed port keys across all
produced threads is exactly the full port set of the constructed graph, no port key is
consumed twice (by one thread or different threads, the per-thread consumed lists are
pairwise disjoint), and the total number of sample-consuming port removals is exactly
4 times the number of strokes.  Without the distinct-midpoint hypothesis the total
equals 4 times the number of distinct midpoints instead. -/
theorem c1_port_conservation (al : vec2 → vec2 → vec2 → Bool) (cv : vec2 → Dir → vec2)
    (strokes : List Stroke) (hmids : (strokes.map Stroke.GetMid).Nodup) :
    ∃ art, CreateThread al cv strokes = .ok art ∧
      art.visits.join.Perm (nsKeys (mkGraph al strokes).unused) ∧
      art.visits.join.Nodup ∧
      art.visits.Pairwise List.Disjoint ∧
      totalVisits art = 4 * strokes.length := by
  obtain ⟨art, hok, hTF, hjoin⟩ := CreateThread_spec al cv strokes
  have hperm : art.visits.join.Perm (nsKeys (mkGraph al strokes).unused) :=
    Multiset.coe_eq_coe.mp hjoin
  obtain ⟨pay, t1, -, -, -, -⟩ := mkGraph_inv al strokes
  have hndkeys : (nsKeys (mkGraph al strokes).unused).Nodup := nsSorted_nodup_keys t1
  have hnd : art.visits.join.Nodup := hperm.nodup_iff.mpr hndkeys
  have hdisj : art.visits.Pairwise List.Disjoint := (List.nodup_join.mp hnd).2
  have hcount : totalVisits art = 4 * strokes.length := by
    have h1 : totalVisits art = art.visits.join.length := (List.length_join _).symm
    rw [h1, hperm.length_eq, nsKeys, List.length_map, mkGraph_unused_length,
      List.dedup_eq_self.mpr hmids, List.length_map]
  exact ⟨art, hok, hperm, hnd, hdisj, hcount⟩

/-- C1 (witness): the amended conservation theorem applied to the one-stroke mesh. -/
theorem c1_port_conservation_witness :
    ∃ art, CreateThread angleLt0 crossVec0 [stroke0] = .ok art ∧
      art.visits.join.Perm (nsKeys (mkGraph angleLt0 [stroke0]).unused) ∧
      art.visits.join.Nodup ∧
      art.visits.Pairwise List.Disjoint ∧
      totalVisits art = 4 * [stroke0].length :=
  c1_port_conservation angleLt0 crossVec0 [stroke0] (by with_unfolding_all decide)

/-- C2 (counterexample): for the single Cross stroke, the produced thread records 2
samples before the closing duplicate while 4 ports are consumed tracing it, so the
sample count does not equal the number of ports consumed. -/
theorem c2_sample_count_counterexample :
    (match CreateThread angleLt0 crossVec0 [stroke0] with
      | .ok art => ((art.threads.getD 0 default).points.length - 1,
          (art.visits.getD 0 []).length)
      | .error _ => (0, 0)) = (2, 4) ∧ (2 : Nat) ≠ 4 := by
  constructor
  · with_unfolding_all decide
  · decide

/-- C2 (amended): for every produced thread, the pre-closing sample count equals HALF
the number of ports consumed while tracing it (each midpoint pass consumes the entry
port and the exit port and records one sample); the pre-closing count is always
positive, and a final closing sample equal to the first is appended. -/
theorem c2_sample_count (al : vec2 → vec2 → vec2 → Bool) (cv : vec2 → Dir → vec2)
    (strokes : List Stroke) :
    ∃ art, CreateThread al cv strokes = .ok art ∧
      art.visits.length = art.threads.length ∧
      ∀ i, i < art.threads.length →
        1 ≤ (art.threads.getD i default).points.length - 1 ∧
        2 * ((art.threads.getD i default).points.length - 1)
          = (art.visits.getD i []).length ∧
        (art.threads.getD i default).points.getLastD default
          = (art.threads.getD i default).points.headD default := by
  obtain ⟨art, hok, hTF, -⟩ := CreateThread_spec al cv strokes
  refine ⟨art, hok, hTF.2.1, ?_⟩
  intro i hi
  obtain ⟨k, hk1, hpts, -, -, hvl, -, -, hc1, -, -⟩ := hTF.2.2 i hi
  refine ⟨?_, ?_, hc1⟩
  · rw [hpts]
    omega
  · rw [hpts, hvl]
    omega

/-- C2 (witness): the amended sample-count theorem applied to the one-stroke mesh. -/
theorem c2_sample_count_witness :
    ∃ art, CreateThread angleLt0 crossVec0 [stroke0] = .ok art ∧
      art.visits.length = art.threads.length ∧
      ∀ i, i < art.threads.length →
        1 ≤ (art.threads.getD i default).points.length - 1 ∧
        2 * ((art.threads.getD i default).points.length - 1)
          = (art.visits.getD i []).length ∧
        (art.threads.getD i default).points.getLastD default
          = (art.threads.getD i default).points.headD default :=
  c2_sample_count angleLt0 crossVec0 [stroke0]

/-- C3: each of BounceDir, CrossDir and GlanceDir is an involution on the four
direction tags, and none of them ever returns its input unchanged. -/
theorem c3_direction_algebra :
    (∀ d : Dir, BounceDir (BounceDir d) = d) ∧
    (∀ d : Dir, CrossDir (CrossDir d) = d) ∧
    (∀ d : Dir, GlanceDir (GlanceDir d) = d) ∧
    (∀ d : Dir, BounceDir d ≠ d) ∧
    (∀ d : Dir, CrossDir d ≠ d) ∧
    (∀ d : Dir, GlanceDir d ≠ d) := by
  refine ⟨?_, ?_, ?_, ?_, ?_, ?_⟩ <;> intro d <;> cases d <;> decide

/-- C3 (witness): the direction-algebra theorem evaluated at the fLeft tag. -/
theorem c3_direction_algebra_witness :
    BounceDir (BounceDir Dir.fLeft) = Dir.fLeft ∧ BounceDir Dir.fLeft ≠ Dir.fLeft :=
  ⟨c3_direction_algebra.1 Dir.fLeft, c3_direction_algebra.2.2.2.1 Dir.fLeft⟩

/-- C4 (counterexample): graph construction does not reject degenerate input: on a
zero-length stroke (coincident endpoints) it completes normally and builds the four
ports, and on two geometrically identical strokes it silently drops the duplicate
ports (4 ports instead of 8) rather than failing with an error. -/
theorem c4_degenerate_counterexample :
    degStroke.a = degStroke.b ∧
    (mkGraph angleLt0 [degStroke]).unused.length = 4 ∧
    (mkGraph angleLt0 [degStroke, degStroke]).unused.length = 4 := by
  refine ⟨rfl, ?_, ?_⟩
  · with_unfolding_all decide
  · with_unfolding_all decide

/-- C4 (amended): graph construction performs no input validation at all: for every
stroke list, including lists with zero-length or duplicate strokes, it builds a graph
with exactly 4 ports per distinct stroke midpoint (duplicate ports being silently
dropped by the set insert), and the whole traversal then completes without error. -/
theorem c4_no_rejection (al : vec2 → vec2 → vec2 → Bool) (cv : vec2 → Dir → vec2)
    (strokes : List Stroke) :
    (mkGraph al strokes).unused.length
      = 4 * ((strokes.map Stroke.GetMid).dedup).length ∧
    ∃ art, CreateThread al cv strokes = .ok art := by
  refine ⟨mkGraph_unused_length al strokes, ?_⟩
  obtain ⟨art, hok, -, -⟩ := CreateThread_spec al cv strokes
  exact ⟨art, hok⟩

/-- C5: the traversal is a pure function of the stroke list (and of the two modelled
transcendental parameters), so two runs on the same list produce identical results:
the same Except value, hence the same thread count, the same per-thread sample counts
and the same sample values. -/
theorem c5_determinism (al : vec2 → vec2 → vec2 → Bool) (cv : vec2 → Dir → vec2)
    (strokes : List Stroke) :
    CreateThread al cv strokes = CreateThread al cv strokes ∧
    Except.map (fun a => a.threads.length) (CreateThread al cv strokes)
      = Except.map (fun a => a.threads.length) (CreateThread al cv strokes) ∧
    Except.map (fun a => a.threads.map (fun t => t.points.length))
        (CreateThread al cv strokes)
      = Except.map (fun a => a.threads.map (fun t => t.points.length))
        (CreateThread al cv strokes) ∧
    Except.map ArtOut.threads (CreateThread al cv strokes)
      = Except.map ArtOut.threads (CreateThread al cv strokes) ∧
    Except.map ArtOut.zsCurves (CreateThread al cv strokes)
      = Except.map ArtOut.zsCurves (CreateThread al cv strokes) :=
  ⟨rfl, rfl, rfl, rfl, rfl⟩

/-- C6: at the start of every thread the outer loop picks the starting port with
pickStart: from the crossed-from-below set (with the up flag set true) whenever that
set is non-empty, and otherwise the least element (the sorted-set begin) of the
unused-port set, with the up flag false. -/
theorem c6_start_pick (unused unusedUp : List Node) (hs : nsSorted unused) :
    (unusedUp ≠ [] → (pickStart unused unusedUp).1 ∈ unusedUp ∧
      (pickStart unused unusedUp).2 = true) ∧
    (unusedUp = [] → unused ≠ [] →
      (pickStart unused unusedUp).1 ∈ unused ∧
      (∀ n ∈ unused, n = (pickStart unused unusedUp).1 ∨
        Node.ltKey (pickStart unused unusedUp).1 n = true) ∧
      (pickStart unused unusedUp).2 = false) := by
  constructor
  · intro hne
    cases unusedUp with
    | nil => exact absurd rfl hne
    | cons h t =>
      have he : pickStart unused (h :: t) = (h, true) := rfl
      rw [he]
      exact ⟨List.mem_cons_self h t, rfl⟩
  · intro hUU hne
    subst hUU
    cases unused with
    | nil => exact absurd rfl hne
    | cons x xs =>
      have he : pickStart (x :: xs) [] = (x, false) := rfl
      rw [he]
      refine ⟨List.mem_cons_self x xs, ?_, rfl⟩
      intro n hn
      rcases List.mem_cons.mp hn with rfl | hn2
      · exact Or.inl rfl
      · exact Or.inr ((List.pairwise_cons.mp hs).1 n hn2)

/-- C6 (witness): the start-pick theorem applied to a concrete singleton unused set
with an empty crossed-from-below set. -/
theorem c6_start_pick_witness :
    (pickStart [(default : Node)] []).1 ∈ [(default : Node)] ∧
    (∀ n ∈ [(default : Node)], n = (pickStart [(default : Node)] []).1 ∨
      Node.ltKey (pickStart [(default : Node)] []).1 n = true) ∧
    (pickStart [(default : Node)] []).2 = false :=
  (c6_start_pick [(default : Node)] [] (by with_unfolding_all decide)).2 rfl
    (by with_unfolding_all decide)

/-- C7: on every inner-loop step, the exit junction computed by exitJunction is the
entry junction for Bounce, and otherwise the one of the two junctions of the stroke
that is not the entry junction; the step is clockwise (cyclic successor in the
junction incident list) exactly when the exit direction is fLeft or bRight, and
counterclockwise (cyclic predecessor) otherwise, where FindNext realizes the cyclic
successor and predecessor of the first occurrence of the midpoint. -/
theorem c7_exit_junction_and_next (n : Node) (j : vec2) :
    (n.type = StrokeType.Bounce → exitJunction n j = j) ∧
    (n.type ≠ StrokeType.Bounce → n.left ≠ n.right → (j = n.left ∨ j = n.right) →
      exitJunction n j ≠ j ∧
      (exitJunction n j = n.left ∨ exitJunction n j = n.right)) ∧
    (∀ d : Dir, exitClockwise d = true ↔ (d = Dir.fLeft ∨ d = Dir.bRight)) ∧
    (∀ (mids : List vec2) (v : vec2) (i : Nat),
      mids.findIdx? (fun m => decide (m = v)) = some i →
      FindNext mids v true = mids.getD ((i + 1) % mids.length) v ∧
      FindNext mids v false = mids.getD ((i + mids.length - 1) % mids.length) v) := by
  refine ⟨?_, ?_, ?_, ?_⟩
  · intro ht
    unfold exitJunction
    rw [if_neg (fun hh => hh ht)]
  · intro ht hlr hj
    unfold exitJunction
    rw [if_pos ht]
    by_cases hjr : j = n.right
    · rw [if_pos hjr]
      constructor
      · intro hh
        exact hlr (hh.trans hjr)
      · exact Or.inl rfl
    · rw [if_neg hjr]
      constructor
      · intro hh
        exact hjr hh.symm
      · exact Or.inr rfl
  · intro d
    cases d <;> simp [exitClockwise]
  · intro mids v i h
    exact ⟨findNext_clockwise h, findNext_counterclockwise h⟩

/-- C7 (witness): the exit-junction and next-midpoint theorem evaluated on a concrete
non-Bounce node with distinct junctions and a concrete two-element incident list. -/
theorem c7_exit_junction_and_next_witness :
    (exitJunction ⟨⟨1, 0⟩, Dir.fLeft, StrokeType.Cross, ⟨0, 1⟩, ⟨0, 0⟩, ⟨2, 0⟩⟩ ⟨0, 0⟩
        ≠ ⟨0, 0⟩ ∧
      (exitJunction ⟨⟨1, 0⟩, Dir.fLeft, StrokeType.Cross, ⟨0, 1⟩, ⟨0, 0⟩, ⟨2, 0⟩⟩ ⟨0, 0⟩
          = (⟨0, 0⟩ : vec2) ∨
        exitJunction ⟨⟨1, 0⟩, Dir.fLeft, StrokeType.Cross, ⟨0, 1⟩, ⟨0, 0⟩, ⟨2, 0⟩⟩ ⟨0, 0⟩
          = (⟨2, 0⟩ : vec2))) ∧
    (FindNext [⟨1, 0⟩, ⟨1, 2⟩] ⟨1, 0⟩ true
        = ([⟨1, 0⟩, ⟨1, 2⟩] : List vec2).getD ((0 + 1) % 2) ⟨1, 0⟩ ∧
      FindNext [⟨1, 0⟩, ⟨1, 2⟩] ⟨1, 0⟩ false
        = ([⟨1, 0⟩, ⟨1, 2⟩] : List vec2).getD ((0 + 2 - 1) % 2) ⟨1, 0⟩) :=
  ⟨(c7_exit_junction_and_next
      ⟨⟨1, 0⟩, Dir.fLeft, StrokeType.Cross, ⟨0, 1⟩, ⟨0, 0⟩, ⟨2, 0⟩⟩ ⟨0, 0⟩).2.1
    (by with_unfolding_all decide) (by with_unfolding_all decide) (Or.inl rfl),
   (c7_exit_junction_and_next
      ⟨⟨1, 0⟩, Dir.fLeft, StrokeType.Cross, ⟨0, 1⟩, ⟨0, 0⟩, ⟨2, 0⟩⟩ ⟨0, 0⟩).2.2.2
    [⟨1, 0⟩, ⟨1, 2⟩] ⟨1, 0⟩ 0 (by with_unfolding_all decide)⟩

/-- C8: every produced thread is closed: the first and last entries of its point,
tangent, and z sequences coincide, and the over/under step curve evaluates equally at
parameter 0 and parameter 1. -/
theorem c8_closure (al : vec2 → vec2 → vec2 → Bool) (cv : vec2 → Dir → vec2)
    (strokes : List Stroke) :
    ∃ art, CreateThread al cv strokes = .ok art ∧
      ∀ i, i < art.GetThreadCount →
        (art.threads.getD i default).points.getLastD default
          = (art.threads.getD i default).points.headD default ∧
        (art.threads.getD i default).tangents.getLastD default
          = (art.threads.getD i default).tangents.headD default ∧
        (art.zsCurves.getD i default).zvals.getLastD 0
          = (art.zsCurves.getD i default).zvals.headD 0 ∧
        stepY (art.zsCurves.getD i default) 0 = stepY (art.zsCurves.getD i default) 1 := by
  obtain ⟨art, hok, hTF, -⟩ := CreateThread_spec al cv strokes
  refine ⟨art, hok, ?_⟩
  intro i hi
  obtain ⟨k, hk1, -, -, -, -, -, hzxs, hc1, hc2, hc3⟩ := hTF.2.2 i hi
  refine ⟨hc1, hc2, hc3, ?_⟩
  have hz : art.zsCurves.getD i default
      = ⟨uniformXs k, (art.zsCurves.getD i default).zvals⟩ := by
    rw [← hzxs]
  rw [hz]
  exact stepY_uniform_closed k hk1 _

/-- C8 (witness): the closure theorem applied to the one-stroke mesh. -/
theorem c8_closure_witness :
    ∃ art, CreateThread angleLt0 crossVec0 [stroke0] = .ok art ∧
      ∀ i, i < art.GetThreadCount →
        (art.threads.getD i default).points.getLastD default
          = (art.threads.getD i default).points.headD default ∧
        (art.threads.getD i default).tangents.getLastD default
          = (art.threads.getD i default).tangents.headD default ∧
        (art.zsCurves.getD i default).zvals.getLastD 0
          = (art.zsCurves.getD i default).zvals.headD 0 ∧
        stepY (art.zsCurves.getD i default) 0
          = stepY (art.zsCurves.getD i default) 1 :=
  c8_closure angleLt0 crossVec0 [stroke0]

/-- C9: the implicit crossed-from-below invariant: the invariant holds of the freshly
built graph with an empty crossed-from-below set; every inner-loop iteration preserves
it and never hits an assert; and under the invariant, every key of the
crossed-from-below set (its begin element in particular) is a live key of the unused
set, so the start pick followed by the erase cannot fail, and the outer-loop
condition (either set non-empty) is equivalent to the unused set being non-empty. -/
theorem c9_crossed_subset_invariant :
    (∀ (al : vec2 → vec2 → vec2 → Bool) (strokes : List Stroke),
      ∃ pay, InvP pay (mkGraph al strokes).unused []) ∧
    (∀ (J : JunctionMap) (cv : vec2 → Dir → vec2)
        (pay : vec2 → StrokeType × vec2 × vec2 × vec2) (cur : Node) (st : TState),
      InvP pay st.unused st.unusedUp → curOKP pay cur st.unused →
      innerStep J cv cur st ≠ .err ∧
      (∀ st', innerStep J cv cur st = .done st' → InvP pay st'.unused st'.unusedUp) ∧
      (∀ cur' st', innerStep J cv cur st = .cont cur' st' →
        InvP pay st'.unused st'.unusedUp ∧ curOKP pay cur' st'.unused)) ∧
    (∀ (pay : vec2 → StrokeType × vec2 × vec2 × vec2) (unused unusedUp : List Node),
      InvP pay unused unusedUp →
      ((¬ (unused = [] ∧ unusedUp = [])) ↔ unused ≠ []) ∧
      (∀ n ∈ unusedUp, nkey n ∈ nsKeys unused) ∧
      (unusedUp ≠ [] → nkey (unusedUp.headD default) ∈ nsKeys unused)) := by
  refine ⟨mkGraph_initial_InvP, ?_, ?_⟩
  · intro J cv pay cur st hI hc
    rcases innerStep_spec J cv pay cur st hI hc with
      ⟨st', heq, -, hI'⟩ | ⟨c', st', heq, -, hI', hc'⟩
    · refine ⟨by rw [heq]; exact fun hh => StepRes.noConfusion hh, ?_, ?_⟩
      · intro st'' h2
        rw [heq] at h2
        cases h2
        exact hI'
      · intro c'' st'' h2
        rw [heq] at h2
        exact StepRes.noConfusion h2
    · refine ⟨by rw [heq]; exact fun hh => StepRes.noConfusion hh, ?_, ?_⟩
      · intro st'' h2
        rw [heq] at h2
        exact StepRes.noConfusion h2
      · intro c'' st'' h2
        rw [heq] at h2
        cases h2
        exact ⟨hI', hc'⟩
  · intro pay u uu hI
    refine ⟨?_, hI.2.2.1, ?_⟩
    · constructor
      · intro hne hu
        apply hne
        refine ⟨hu, ?_⟩
        cases huu : uu with
        | nil => rfl
        | cons h t =>
          exfalso
          have hm := hI.2.2.1 h (by rw [huu]; exact List.mem_cons_self h t)
          rw [hu] at hm
          simp [nsKeys] at hm
      · intro hu hand
        exact hu hand.1
    · intro hne
      cases uu with
      | nil => exact absurd rfl hne
      | cons h t => exact hI.2.2.1 h (List.mem_cons_self h t)

/-- C9 (witness): the invariant consequences instantiated on the one-stroke graph:
the outer-loop condition is equivalent to non-emptiness of the unused set. -/
theorem c9_crossed_subset_invariant_witness :
    (¬ ((mkGraph angleLt0 [stroke0]).unused = [] ∧ ([] : List Node) = []))
      ↔ (mkGraph angleLt0 [stroke0]).unused ≠ [] := by
  obtain ⟨pay, hI⟩ := c9_crossed_subset_invariant.1 angleLt0 [stroke0]
  exact (c9_crossed_subset_invariant.2.2 pay (mkGraph angleLt0 [stroke0]).unused [] hI).1

/-- C10: every Art produced by CreateThread has exactly one step curve per thread:
the thread vector and the Z vector have equal length, the pair pushed for each thread
carries the same knot count (the same knot vector length), and therefore GetZ, whose
bound check compares the index against GetThreadCount (the thread vector length),
returns a value for every index below GetThreadCount. -/
theorem c10_thread_z_pairing (al : vec2 → vec2 → vec2 → Bool) (cv : vec2 → Dir → vec2)
    (strokes : List Stroke) :
    ∃ art, CreateThread al cv strokes = .ok art ∧
      art.threads.length = art.zsCurves.length ∧
      (∀ i, i < art.GetThreadCount → i < art.zsCurves.length) ∧
      (∀ i, i < art.GetThreadCount → (art.GetZ i).isSome = true) ∧
      (∀ i, i < art.GetThreadCount →
        (art.threads.getD i default).xs.length
          = (art.zsCurves.getD i default).xs.length) := by
  obtain ⟨art, hok, hTF, -⟩ := CreateThread_spec al cv strokes
  refine ⟨art, hok, hTF.1, ?_, ?_, ?_⟩
  · intro i hi
    rw [← hTF.1]
    exact hi
  · intro i hi
    rw [ArtOut.GetZ, if_pos hi]
    rfl
  · intro i hi
    obtain ⟨k, -, -, -, -, -, htxs, hzxs, -, -, -⟩ := hTF.2.2 i hi
    rw [htxs, hzxs]

/-- C10 (witness): the thread and Z pairing theorem applied to the one-stroke mesh. -/
theorem c10_thread_z_pairing_witness :
    ∃ art, CreateThread angleLt0 crossVec0 [stroke0] = .ok art ∧
      art.threads.length = art.zsCurves.length ∧
      (∀ i, i < art.GetThreadCount → i < art.zsCurves.length) ∧
      (∀ i, i < art.GetThreadCount → (art.GetZ i).isSome = true) ∧
      (∀ i, i < art.GetThreadCount →
        (art.threads.getD i default).xs.length
          = (art.zsCurves.getD i default).xs.length) :=
  c10_thread_z_pairing angleLt0 crossVec0 [stroke0]

end CKnot
